import Mathlib

/-!
Verification of the `event-loop` repository: a bounded binary min-heap
(`BinaryHeap`) keyed on a numeric `ms` field, and an `EventLoop` scheduler
that drains a macro-task queue, a micro-task queue and an animation queue
under a phase policy with a 16 ms paint gate.

The definitions below are a shallow embedding of `src/index.ts`:
JavaScript arrays become `List`, thrown errors become explicit error
values, `Date.now()` becomes explicit timestamp parameters, and task
callbacks become finite effect descriptions (tasks a callback enqueues,
plus a failure flag).
-/

set_option maxHeartbeats 1000000
set_option linter.unusedVariables false
set_option linter.unusedSectionVars false

namespace EvLoop

/-- Key access: the source heap is generic over `T extends Task` and
only reads the numeric field `.ms` of its elements. -/
class MsOf (α : Type) where
  ms : α → Nat

/-- `Math.floor((i - 1) / 2)`; only ever used at `i > 0`, where the
JavaScript value is the same natural number. -/
def parentOf (i : Nat) : Nat := (i - 1) / 2

/-- `2 * i + 1`. -/
def leftChild (i : Nat) : Nat := 2 * i + 1

/-- `2 * i + 2`. -/
def rightChild (i : Nat) : Nat := 2 * i + 2

/-- `swap(i, j)`: exchange the entries at positions `i` and `j`. -/
def swap {α : Type} [Inhabited α] (l : List α) (i j : Nat) : List α :=
  (l.set i (l.getD j default)).set j (l.getD i default)

/-- The key stored at index `i` (`this.items[i].ms`). -/
def keyAt {α : Type} [Inhabited α] [MsOf α] (l : List α) (i : Nat) : Nat :=
  MsOf.ms (l.getD i default)

/-- The `heapifyUp` while-loop of the source, started at index `i`:
while the parent exists and its key is strictly greater, swap up. -/
def heapifyUpFrom {α : Type} [Inhabited α] [MsOf α] (l : List α) (i : Nat) : List α :=
  if h : 0 < i then
    if keyAt l (parentOf i) > keyAt l i then
      heapifyUpFrom (swap l (parentOf i) i) (parentOf i)
    else l
  else l
termination_by i
decreasing_by
  simp only [parentOf]
  omega

/-- `heapifyUp()`: sift up from the last index. -/
def heapifyUp {α : Type} [Inhabited α] [MsOf α] (l : List α) : List α :=
  heapifyUpFrom l (l.length - 1)

/-- The `smallerI` selection of the source's `heapifyDown` loop body:
start from the left child and move to the right child exactly when it
exists and its key is strictly smaller than the left child's. -/
def smallerChild {α : Type} [Inhabited α] [MsOf α] (l : List α) (i : Nat) : Nat :=
  if rightChild i < l.length ∧ keyAt l (rightChild i) < keyAt l (leftChild i) then
    rightChild i
  else leftChild i

/-- The `heapifyDown` while-loop of the source, started at index `i`:
choose the smaller child (right wins ties only strictly), break when the
smaller child's key is strictly greater than the current key, otherwise
swap and continue. -/
def heapifyDownFrom {α : Type} [Inhabited α] [MsOf α] (l : List α) (i : Nat) : List α :=
  if h : leftChild i < l.length then
    if keyAt l (smallerChild l i) > keyAt l i then l
    else heapifyDownFrom (swap l (smallerChild l i) i) (smallerChild l i)
  else l
termination_by l.length - i
decreasing_by
  simp only [swap, List.length_set]
  simp only [smallerChild, leftChild, rightChild] at *
  split <;> omega

/-- `heapifyDown()`: sift down from the root. -/
def heapifyDown {α : Type} [Inhabited α] [MsOf α] (l : List α) : List α :=
  heapifyDownFrom l 0

/-- The error values thrown by the heap: `"Heap exceeded its capacity"`,
`"Heap is empty"`, and the defensive `"Something went wrong during the
Heap shifting"` (the last is unreachable: `items.shift()` on a non-empty
array always yields an element). -/
inductive HeapError where
  | capacityExceeded
  | emptyQueue
  | shiftFailure
deriving Repr, DecidableEq

/-- `BinaryHeap<T>`: a dense array plus a capacity fixed at construction
(`none` models the default capacity `Infinity`). -/
structure BinaryHeap (α : Type) where
  items : List α
  capacity : Option Nat
deriving Repr, DecidableEq

/-- `size` getter. -/
def BinaryHeap.size {α : Type} (h : BinaryHeap α) : Nat := h.items.length

/-- `hasItems` getter. -/
def BinaryHeap.hasItems {α : Type} (h : BinaryHeap α) : Bool := h.size > 0

/-- `this.size > this.capacity` (always false against `Infinity`). -/
def capacityHit (cap : Option Nat) (size : Nat) : Bool :=
  match cap with
  | none => false
  | some c => size > c

/-- `push(item)`: throw if `size > capacity`, else append and sift up. -/
def BinaryHeap.push {α : Type} [Inhabited α] [MsOf α] (h : BinaryHeap α) (item : α) :
    Except HeapError (BinaryHeap α) :=
  if capacityHit h.capacity h.size then .error .capacityExceeded
  else .ok { h with items := heapifyUp (h.items ++ [item]) }

/-- `shift()`: throw if empty, else `items.shift()` (remove the array
head, sliding every element one position left), sift down from the root
of the slid array, and return the removed head. -/
def BinaryHeap.shift {α : Type} [Inhabited α] [MsOf α] (h : BinaryHeap α) :
    Except HeapError (α × BinaryHeap α) :=
  match h.items with
  | [] => .error .emptyQueue
  | item :: rest => .ok (item, { h with items := heapifyDownFrom rest 0 })

/-- `peek()`: `return this.items[0]` with no emptiness check; on an empty
heap the source returns `undefined`, modelled as `none`. -/
def BinaryHeap.peek {α : Type} (h : BinaryHeap α) : Option α := h.items.head?

/-- A heap element of the repository: `Task` pairs a callback with its
numeric delay `ms`; the callback is identified by a tag. -/
structure Task where
  ms : Nat
  tag : Nat
deriving Repr, DecidableEq

instance : Inhabited Task := ⟨⟨0, 0⟩⟩

instance : MsOf Task := ⟨Task.ms⟩

/-- Push a list of keyed items in order (used to replay test scenarios). -/
def pushAll (h : BinaryHeap Task) (ks : List (Nat × Nat)) :
    Except HeapError (BinaryHeap Task) :=
  ks.foldlM (fun acc kt => acc.push ⟨kt.1, kt.2⟩) h

/-- Repeated `shift`, dropping the returned items. -/
def shiftN : Nat → BinaryHeap Task → Except HeapError (BinaryHeap Task)
  | 0, h => .ok h
  | n + 1, h => (h.shift).bind (fun p => shiftN n p.2)

/-- The min-heap invariant: every non-root element's key is at least its
parent's key. -/
def heapInv {α : Type} [Inhabited α] [MsOf α] (l : List α) : Prop :=
  ∀ i, i < l.length → 0 < i → keyAt l (parentOf i) ≤ keyAt l i

instance {α : Type} [Inhabited α] [MsOf α] (l : List α) : Decidable (heapInv l) := by
  unfold heapInv
  infer_instance

/-- The invariant on a whole queue value. -/
def BinaryHeap.wellFormed {α : Type} [Inhabited α] [MsOf α] (h : BinaryHeap α) : Prop :=
  heapInv h.items

/-- Modelled from the spec's description of `siftDown` (the words of the
claim, for comparison with the source's `heapifyDown`): at each level
pick the smaller of the two children, the right child winning a tie only
when its key is strictly less than the left's; stop when the current
node's key is less than or equal to the smaller child's key, otherwise
swap with that child and continue. -/
def siftDownSpec {α : Type} [Inhabited α] [MsOf α] (l : List α) (i : Nat) : List α :=
  if h : leftChild i < l.length then
    if keyAt l i ≤ keyAt l (smallerChild l i) then l
    else siftDownSpec (swap l (smallerChild l i) i) (smallerChild l i)
  else l
termination_by l.length - i
decreasing_by
  simp only [swap, List.length_set]
  simp only [smallerChild, leftChild, rightChild] at *
  split <;> omega

/-- The amended description of `siftDown`: identical to `siftDownSpec`
except that the walk stops only when the current node's key is strictly
less than the smaller child's key; equal keys are swapped and the walk
continues. -/
def siftDownAmended {α : Type} [Inhabited α] [MsOf α] (l : List α) (i : Nat) : List α :=
  if h : leftChild i < l.length then
    if keyAt l i < keyAt l (smallerChild l i) then l
    else siftDownAmended (swap l (smallerChild l i) i) (smallerChild l i)
  else l
termination_by l.length - i
decreasing_by
  simp only [swap, List.length_set]
  simp only [smallerChild, leftChild, rightChild] at *
  split <;> omega

/-!
## The scheduler (`EventLoop`)

A task of the scheduler pairs its delay key `ms` with a description of
what its callback does when awaited: the tasks it enqueues into each of
the three queues (via `queueMacroTask` / `queueMicroTask` /
`queueAnimationTask`) and whether it ends by throwing. A `tag`
identifies the task in the observable trace.
-/

/-- A scheduler task: `mk tag ms macroSpawns microSpawns animSpawns fails`. -/
inductive LTask : Type where
  | mk (tag ms : Nat) (macroSpawns microSpawns animSpawns : List LTask) (fails : Bool)

instance : Inhabited LTask := ⟨.mk 0 0 [] [] [] false⟩

/-- The task's tag. -/
def LTask.tag : LTask → Nat
  | .mk t _ _ _ _ _ => t

/-- The task's `ms` key. -/
def LTask.ms : LTask → Nat
  | .mk _ m _ _ _ _ => m

/-- Tasks the callback pushes into the macro-task queue. -/
def LTask.macroSpawns : LTask → List LTask
  | .mk _ _ ma _ _ _ => ma

/-- Tasks the callback pushes into the micro-task queue. -/
def LTask.microSpawns : LTask → List LTask
  | .mk _ _ _ mi _ _ => mi

/-- Tasks the callback pushes into the animation queue. -/
def LTask.animSpawns : LTask → List LTask
  | .mk _ _ _ _ an _ => an

/-- Whether the callback throws after its enqueues. -/
def LTask.fails : LTask → Bool
  | .mk _ _ _ _ _ f => f

instance : MsOf LTask := ⟨LTask.ms⟩

/-- Total size of a spawn forest: each task counts one plus everything
it ever spawns, so executing a task strictly shrinks the total. -/
def sizeL : List LTask → Nat
  | [] => 0
  | .mk _ _ ma mi an _ :: r => (1 + sizeL ma + sizeL mi + sizeL an) + sizeL r

/-- One plus the total size of everything the task spawns. -/
def LTask.size (t : LTask) : Nat :=
  1 + sizeL t.macroSpawns + sizeL t.microSpawns + sizeL t.animSpawns

/-- The three queues owned by the scheduler. -/
inductive QueueKind where
  | macroQ
  | microQ
  | animQ
deriving Repr, DecidableEq

/-- Errors surfacing out of the loop: a heap error raised by a queue
operation, or a task callback that throws. -/
inductive LoopError where
  | heapErr (e : HeapError)
  | taskFailed
deriving Repr, DecidableEq

/-- Observable behaviour: a task execution (`execute` popping and
awaiting a callback) or the `repaint()` notification. -/
inductive Event where
  | ran (k : QueueKind) (tag : Nat)
  | repaint
deriving Repr, DecidableEq

/-- The scheduler state: three bounded heaps (capacity 16 each in the
source constructor) plus `lastPaintTime`. -/
structure EventLoop where
  macroTaskQueue : BinaryHeap LTask
  microTaskQueue : BinaryHeap LTask
  animationQueue : BinaryHeap LTask
  lastPaintTime : Nat

/-- `new EventLoop()` at construction time `now`: `Date.now()` seeds
`lastPaintTime`, and each queue is `new BinaryHeap<Task>(16)`. -/
def EventLoop.create (now : Nat) : EventLoop :=
  ⟨⟨[], some 16⟩, ⟨[], some 16⟩, ⟨[], some 16⟩, now⟩

/-- `isPainting` getter at observation time `now`:
`Date.now() - this.lastPaintTime >= 16`. -/
def EventLoop.isPainting (s : EventLoop) (now : Nat) : Bool :=
  now - s.lastPaintTime ≥ 16

/-- `hasTasks` getter: some queue has items. -/
def EventLoop.hasTasks (s : EventLoop) : Bool :=
  s.macroTaskQueue.hasItems || s.microTaskQueue.hasItems || s.animationQueue.hasItems

/-- The queue of a given kind. -/
def getQ : QueueKind → EventLoop → BinaryHeap LTask
  | .macroQ, s => s.macroTaskQueue
  | .microQ, s => s.microTaskQueue
  | .animQ, s => s.animationQueue

/-- Replace the queue of a given kind. -/
def setQ : QueueKind → EventLoop → BinaryHeap LTask → EventLoop
  | .macroQ, s, q => { s with macroTaskQueue := q }
  | .microQ, s, q => { s with microTaskQueue := q }
  | .animQ, s, q => { s with animationQueue := q }

/-- The tasks a callback pushes into the queue of a given kind. -/
def spawnsOf : QueueKind → LTask → List LTask
  | .macroQ, t => t.macroSpawns
  | .microQ, t => t.microSpawns
  | .animQ, t => t.animSpawns

/-- Push a list of tasks one at a time, stopping at the first
`CapacityExceeded`; returns the queue after the successful pushes and
whether a push failed. -/
def pushTasks (q : BinaryHeap LTask) : List LTask → BinaryHeap LTask × Bool
  | [] => (q, false)
  | t :: r =>
    match q.push t with
    | .error _ => (q, true)
    | .ok q' => pushTasks q' r

/-- Awaiting a task's callback: its enqueues land in order (macro, then
micro, then animation queue), then it either returns or throws. A failed
push surfaces as the heap's `CapacityExceeded` error. -/
def execAction (s : EventLoop) (t : LTask) : EventLoop × Option LoopError :=
  let ma := pushTasks s.macroTaskQueue t.macroSpawns
  let s1 := { s with macroTaskQueue := ma.1 }
  if ma.2 then (s1, some (.heapErr .capacityExceeded)) else
  let mi := pushTasks s1.microTaskQueue t.microSpawns
  let s2 := { s1 with microTaskQueue := mi.1 }
  if mi.2 then (s2, some (.heapErr .capacityExceeded)) else
  let an := pushTasks s2.animationQueue t.animSpawns
  let s3 := { s2 with animationQueue := an.1 }
  if an.2 then (s3, some (.heapErr .capacityExceeded)) else
  if t.fails then (s3, some .taskFailed) else (s3, none)

/-- `execute(queue)`: shift the queue of kind `k` and await the popped
task's callback. The trace records the execution. -/
def executeQ (k : QueueKind) (s : EventLoop) : EventLoop × List Event × Option LoopError :=
  match (getQ k s).shift with
  | .error e => (s, [], some (.heapErr e))
  | .ok (t, q') =>
    let r := execAction (setQ k s q') t
    (r.1, [.ran k t.tag], r.2)

/-- Result of a (fuelled) loop fragment: normal completion, an error
propagating out, or fuel exhaustion (the fragment did not finish within
the allotted number of executions). -/
inductive LoopRes where
  | ok (s : EventLoop) (tr : List Event)
  | fail (s : EventLoop) (tr : List Event) (e : LoopError)
  | fuelOut (s : EventLoop) (tr : List Event)

/-- Prepend already-produced events to a result's trace. -/
def LoopRes.withPre (tr0 : List Event) : LoopRes → LoopRes
  | .ok s tr => .ok s (tr0 ++ tr)
  | .fail s tr e => .fail s (tr0 ++ tr) e
  | .fuelOut s tr => .fuelOut s (tr0 ++ tr)

/-- `while (queue.hasItems) { await execute(queue) }`: re-check emptiness
after each execution; `fuel` bounds the number of executions. -/
def drainQ (k : QueueKind) : Nat → EventLoop → LoopRes
  | 0, s => if (getQ k s).hasItems then .fuelOut s [] else .ok s []
  | fuel + 1, s =>
    if (getQ k s).hasItems then
      match executeQ k s with
      | (s', tr, some e) => .fail s' tr e
      | (s', tr, none) => (drainQ k fuel s').withPre tr
    else .ok s []

/-- Phase 1 of an iteration: `if (this.hasMacroTask) await execute(...)`,
executing at most one macro task. -/
def phase1 (s : EventLoop) : EventLoop × List Event × Option LoopError :=
  if s.macroTaskQueue.hasItems then executeQ .macroQ s else (s, [], none)

/-- Phase 3 of an iteration: `if (this.isPainting) { ... }` — when the
gate is open, drain the animation queue, then reset `lastPaintTime` to
`nowReset` (the second `Date.now()` of the iteration) and `repaint()`. -/
def phase3 (fuel nowCheck nowReset : Nat) (s2 : EventLoop) : LoopRes :=
  if s2.isPainting nowCheck then
    match drainQ .animQ fuel s2 with
    | .fail s3 tr3 e => .fail s3 tr3 e
    | .fuelOut s3 tr3 => .fuelOut s3 tr3
    | .ok s3 tr3 =>
      .ok { s3 with lastPaintTime := nowReset } (tr3 ++ [.repaint])
  else .ok s2 []

/-- One body of the outer `while (this.hasTasks)` loop: at most one
macro task, then drain the micro queue, then the gated frame phase. -/
def iteration (fuel nowCheck nowReset : Nat) (s : EventLoop) : LoopRes :=
  match phase1 s with
  | (s1, tr1, some e) => .fail s1 tr1 e
  | (s1, tr1, none) =>
    match drainQ .microQ fuel s1 with
    | .fail s2 tr2 e => .fail s2 (tr1 ++ tr2) e
    | .fuelOut s2 tr2 => .fuelOut s2 (tr1 ++ tr2)
    | .ok s2 tr2 => (phase3 fuel nowCheck nowReset s2).withPre (tr1 ++ tr2)

/-- `run()`: iterate while some queue has items. `times k` supplies the
two `Date.now()` observations of iteration `k` (the `isPainting` check
and the `lastPaintTime` reset); `fuel` bounds the total work. -/
def runLoop (times : Nat → Nat × Nat) : Nat → Nat → EventLoop → LoopRes
  | 0, _, s => if s.hasTasks then .fuelOut s [] else .ok s []
  | fuel + 1, k, s =>
    if s.hasTasks then
      match iteration fuel (times k).1 (times k).2 s with
      | .fail s' tr e => .fail s' tr e
      | .fuelOut s' tr => .fuelOut s' tr
      | .ok s' tr => (runLoop times fuel (k + 1) s').withPre tr
    else .ok s []

/-- Total spawn-forest size held in the scheduler state; the measure
that bounds all remaining work. -/
def stateMeasure (s : EventLoop) : Nat :=
  sizeL s.macroTaskQueue.items + sizeL s.microTaskQueue.items + sizeL s.animationQueue.items

/-- A result that is not `fuelOut`: the fragment genuinely finished. -/
def LoopRes.isSettled : LoopRes → Bool
  | .ok _ _ => true
  | .fail _ _ _ => true
  | .fuelOut _ _ => false

/-- The scheduler state carried by a result. -/
def LoopRes.resState : LoopRes → EventLoop
  | .ok s _ => s
  | .fail s _ _ => s
  | .fuelOut s _ => s

/-- The trace carried by a result. -/
def LoopRes.resTrace : LoopRes → List Event
  | .ok _ tr => tr
  | .fail _ tr _ => tr
  | .fuelOut _ tr => tr

/-- Whether an event is an execution drawn from queue `k`. -/
def isRanOn (k : QueueKind) (e : Event) : Bool :=
  match e with
  | .ran k' _ => k' = k
  | .repaint => false

/-- Whether an event is the `repaint()` notification. -/
def isRepaint (e : Event) : Bool :=
  match e with
  | .ran _ _ => false
  | .repaint => true

/-- Count of executions drawn from queue `k` in a trace. -/
def ranCount (k : QueueKind) (tr : List Event) : Nat :=
  tr.countP (isRanOn k)

/-- Count of `repaint()` notifications in a trace. -/
def repaintCount (tr : List Event) : Nat :=
  tr.countP isRepaint

/-!
## Heap infrastructure lemmas
-/

section HeapLemmas

variable {α : Type} [Inhabited α] [MsOf α]

theorem swap_length (l : List α) (i j : Nat) : (swap l i j).length = l.length := by
  simp [swap]

theorem getD_set_self (l : List α) (i : Nat) (x : α) (h : i < l.length) :
    (l.set i x).getD i default = x := by
  rw [List.getD_eq_getElem _ _ (by simpa using h)]
  simp [List.getElem_set]

theorem getD_set_ne (l : List α) (i k : Nat) (x : α) (h : k ≠ i) :
    (l.set i x).getD k default = l.getD k default := by
  simp [List.getD, List.getElem?_set_ne (Ne.symm h)]

theorem set_getD_self (l : List α) (i : Nat) : l.set i (l.getD i default) = l := by
  induction l generalizing i with
  | nil => rfl
  | cons a t ih =>
    cases i with
    | zero => rfl
    | succ k => simp only [List.getD_cons_succ, List.set_cons_succ, ih]

theorem keyAt_swap_tgt (l : List α) (i j : Nat) (hj : j < l.length) :
    keyAt (swap l i j) j = keyAt l i := by
  unfold keyAt swap
  rw [getD_set_self _ _ _ (by simpa using hj)]

theorem keyAt_swap_src (l : List α) (i j : Nat) (hij : i ≠ j) (hi : i < l.length) :
    keyAt (swap l i j) i = keyAt l j := by
  unfold keyAt swap
  rw [getD_set_ne _ _ _ _ hij, getD_set_self _ _ _ hi]

theorem keyAt_swap_other (l : List α) (i j k : Nat) (hki : k ≠ i) (hkj : k ≠ j) :
    keyAt (swap l i j) k = keyAt l k := by
  unfold keyAt swap
  rw [getD_set_ne _ _ _ _ hkj, getD_set_ne _ _ _ _ hki]

theorem perm_cons_set (t : List α) (k : Nat) (x : α) (hk : k < t.length) :
    ((t.getD k default) :: t.set k x).Perm (x :: t) := by
  induction t generalizing k with
  | nil => simp at hk
  | cons b r ih =>
    cases k with
    | zero => exact List.Perm.swap x b r
    | succ m =>
      have hm : m < r.length := by simpa using hk
      exact ((List.Perm.swap b (r.getD m default) (r.set m x)).trans
        (((ih m hm).cons b).trans (List.Perm.swap x b r)))

theorem swap_perm (l : List α) (i j : Nat) (hi : i < l.length) (hj : j < l.length) :
    (swap l i j).Perm l := by
  induction l generalizing i j with
  | nil => simp at hi
  | cons a t ih =>
    cases i with
    | zero =>
      cases j with
      | zero =>
        unfold swap
        rw [List.set_set, set_getD_self]
      | succ k =>
        have hk : k < t.length := by simpa using hj
        unfold swap
        rw [List.getD_cons_succ, List.getD_cons_zero]
        show ((((t.getD k default) :: t)).set (k + 1) a).Perm (a :: t)
        rw [List.set_cons_succ]
        exact perm_cons_set t k a hk
    | succ m =>
      cases j with
      | zero =>
        have hm : m < t.length := by simpa using hi
        unfold swap
        rw [List.getD_cons_zero, List.getD_cons_succ, List.set_cons_succ,
          List.set_cons_zero]
        exact perm_cons_set t m a hm
      | succ k =>
        have hm : m < t.length := by simpa using hi
        have hk : k < t.length := by simpa using hj
        unfold swap
        rw [List.getD_cons_succ, List.getD_cons_succ, List.set_cons_succ,
          List.set_cons_succ]
        exact (ih m k hm hk).cons a

theorem heapifyUpFrom_perm (l : List α) (i : Nat) (hi : i < l.length) :
    (heapifyUpFrom l i).Perm l := by
  induction l, i using heapifyUpFrom.induct with
  | case1 l i h hgt ih =>
    rw [heapifyUpFrom, dif_pos h, if_pos hgt]
    have hp : parentOf i < l.length := lt_trans (by unfold parentOf; omega) hi
    have h1 : parentOf i < (swap l (parentOf i) i).length := by
      rw [swap_length]; exact hp
    exact (ih h1).trans (swap_perm l (parentOf i) i hp hi)
  | case2 l i h hgt => rw [heapifyUpFrom, dif_pos h, if_neg hgt]
  | case3 l i h => rw [heapifyUpFrom, dif_neg h]

theorem smallerChild_lt_length (l : List α) (i : Nat) (h : leftChild i < l.length) :
    smallerChild l i < l.length := by
  unfold smallerChild
  split
  · next hc => exact hc.1
  · exact h

theorem lt_smallerChild (l : List α) (i : Nat) : i < smallerChild l i := by
  unfold smallerChild leftChild rightChild
  split <;> omega

theorem heapifyDownFrom_perm (l : List α) (i : Nat) :
    (heapifyDownFrom l i).Perm l := by
  induction l, i using heapifyDownFrom.induct with
  | case1 l i h hgt =>
    rw [heapifyDownFrom, dif_pos h, if_pos hgt]
  | case2 l i h hgt ih =>
    rw [heapifyDownFrom, dif_pos h, if_neg hgt]
    have hsm : smallerChild l i < l.length := smallerChild_lt_length l i h
    have hil : i < l.length := lt_of_lt_of_le (lt_smallerChild l i) (le_of_lt hsm)
    exact ih.trans (swap_perm l (smallerChild l i) i hsm hil)
  | case3 l i h => rw [heapifyDownFrom, dif_neg h]

theorem heapifyUpFrom_length (l : List α) (i : Nat) (hi : i < l.length) :
    (heapifyUpFrom l i).length = l.length :=
  (heapifyUpFrom_perm l i hi).length_eq

theorem heapifyDownFrom_length (l : List α) (i : Nat) :
    (heapifyDownFrom l i).length = l.length :=
  (heapifyDownFrom_perm l i).length_eq

theorem parentOf_lt (i : Nat) (h : 0 < i) : parentOf i < i := by
  unfold parentOf
  omega

theorem parentOf_eq_iff (c j : Nat) (hc : 0 < c) :
    parentOf c = j ↔ c = 2 * j + 1 ∨ c = 2 * j + 2 := by
  unfold parentOf
  omega

theorem keyAt_append (l l' : List α) (i : Nat) (h : i < l.length) :
    keyAt (l ++ l') i = keyAt l i := by
  unfold keyAt
  rw [List.getD_append _ _ _ _ h]

/-- All parent edges hold except possibly the one into index `j`. -/
def heapInvExcept (l : List α) (j : Nat) : Prop :=
  ∀ i, i < l.length → 0 < i → i ≠ j → keyAt l (parentOf i) ≤ keyAt l i

/-- The children of `j` are bounded below by `j`'s parent. -/
def childBound (l : List α) (j : Nat) : Prop :=
  0 < j → ∀ c, c < l.length → parentOf c = j → keyAt l (parentOf j) ≤ keyAt l c

theorem heapifyUpFrom_inv (l : List α) (j : Nat) :
    j < l.length → heapInvExcept l j → childBound l j →
    heapInv (heapifyUpFrom l j) := by
  induction l, j using heapifyUpFrom.induct with
  | case1 l j h0 hgt ih =>
    intro hj hExc hCB
    rw [heapifyUpFrom, dif_pos h0, if_pos hgt]
    have hp : parentOf j < j := parentOf_lt j h0
    have hpl : parentOf j < l.length := lt_trans hp hj
    have hpj : parentOf j ≠ j := Nat.ne_of_lt hp
    have hlen : (swap l (parentOf j) j).length = l.length := swap_length ..
    apply ih
    · rw [hlen]; exact hpl
    · -- heapInvExcept (swap l (parentOf j) j) (parentOf j)
      intro i hi hi0 hip
      rw [hlen] at hi
      by_cases hij : i = j
      · rw [hij, keyAt_swap_tgt l (parentOf j) j hj,
          keyAt_swap_src l (parentOf j) j hpj hpl]
        exact le_of_lt hgt
      · have hkk : keyAt (swap l (parentOf j) j) i = keyAt l i :=
          keyAt_swap_other l (parentOf j) j i hip hij
        rw [hkk]
        by_cases hpi : parentOf i = j
        · rw [hpi, keyAt_swap_tgt l (parentOf j) j hj]
          exact hCB h0 i hi hpi
        · by_cases hpp : parentOf i = parentOf j
          · rw [hpp, keyAt_swap_src l (parentOf j) j hpj hpl]
            have hx := hExc i hi hi0 hij
            rw [hpp] at hx
            exact le_trans (le_of_lt hgt) hx
          · rw [keyAt_swap_other l (parentOf j) j (parentOf i) hpp hpi]
            exact hExc i hi hi0 hij
    · -- childBound (swap l (parentOf j) j) (parentOf j)
      intro hp0 c hc hpc
      rw [hlen] at hc
      have hg : parentOf (parentOf j) < parentOf j := parentOf_lt _ hp0
      have hgp : parentOf (parentOf j) ≠ parentOf j := Nat.ne_of_lt hg
      have hgj : parentOf (parentOf j) ≠ j := Nat.ne_of_lt (lt_trans hg hp)
      rw [keyAt_swap_other l (parentOf j) j (parentOf (parentOf j)) hgp hgj]
      have hEdgeP : keyAt l (parentOf (parentOf j)) ≤ keyAt l (parentOf j) :=
        hExc (parentOf j) hpl hp0 hpj
      by_cases hcj : c = j
      · rw [hcj, keyAt_swap_tgt l (parentOf j) j hj]
        exact hEdgeP
      · have hc0 : 0 < c := by
          rcases Nat.eq_zero_or_pos c with hz | hz
          · exfalso
            rw [hz] at hpc
            have hzz : parentOf 0 = 0 := rfl
            omega
          · exact hz
        have hcp : c ≠ parentOf j := by
          have := parentOf_lt c hc0
          omega
        rw [keyAt_swap_other l (parentOf j) j c hcp hcj]
        have hEdgeC : keyAt l (parentOf c) ≤ keyAt l c := hExc c hc hc0 hcj
        rw [hpc] at hEdgeC
        exact le_trans hEdgeP hEdgeC
  | case2 l j h0 hgt =>
    intro hj hExc hCB
    rw [heapifyUpFrom, dif_pos h0, if_neg hgt]
    intro i hi hi0
    by_cases hij : i = j
    · rw [hij]
      exact Nat.le_of_not_lt hgt
    · exact hExc i hi hi0 hij
  | case3 l j h0 =>
    intro hj hExc hCB
    rw [heapifyUpFrom, dif_neg h0]
    intro i hi hi0
    have hij : i ≠ j := by omega
    exact hExc i hi hi0 hij

/-- `push` on a well-formed heap: the result is well-formed and holds
exactly the old items plus the new one. -/
theorem push_ok_inv {h : BinaryHeap α} {t : α} {h' : BinaryHeap α}
    (hInv : heapInv h.items) (hok : h.push t = .ok h') :
    heapInv h'.items ∧ h'.items.Perm (t :: h.items) := by
  unfold BinaryHeap.push at hok
  by_cases hcap : capacityHit h.capacity h.size
  · rw [if_pos hcap] at hok
    cases hok
  · rw [if_neg hcap] at hok
    cases hok
    show heapInv (heapifyUp (h.items ++ [t])) ∧
      (heapifyUp (h.items ++ [t])).Perm (t :: h.items)
    unfold heapifyUp
    have hlen : (h.items ++ [t]).length = h.items.length + 1 := by simp
    have hjlt : (h.items ++ [t]).length - 1 < (h.items ++ [t]).length := by
      rw [hlen]
      omega
    constructor
    · apply heapifyUpFrom_inv _ _ hjlt
      · intro i hi hi0 hij
        rw [hlen] at hi hij
        simp only [hlen, Nat.add_sub_cancel] at hij
        have hil : i < h.items.length := by omega
        have hpl : parentOf i < h.items.length := lt_trans (parentOf_lt i hi0) hil
        rw [keyAt_append _ _ _ hil, keyAt_append _ _ _ hpl]
        exact hInv i hil hi0
      · intro hp0 c hc hpc
        rw [hlen] at hc
        simp only [hlen, Nat.add_sub_cancel] at hpc
        have hc0 : 0 < c := by
          rcases Nat.eq_zero_or_pos c with hz | hz
          · exfalso
            subst hz
            have : parentOf 0 = 0 := rfl
            simp only [hlen, Nat.add_sub_cancel] at hp0
            omega
          · exact hz
        have := (parentOf_eq_iff c _ hc0).mp hpc
        omega
    · exact (heapifyUpFrom_perm _ _ hjlt).trans (List.perm_append_singleton t h.items)

/-- `shift` on a non-empty heap returns the head of the backing array
and a state holding a permutation of the remaining items. -/
theorem shift_ok_perm {h : BinaryHeap α} {t : α} {rest : List α}
    (hitems : h.items = t :: rest) :
    ∃ h', h.shift = .ok (t, h') ∧ h'.items.Perm rest ∧ h'.capacity = h.capacity := by
  unfold BinaryHeap.shift
  rw [hitems]
  exact ⟨_, rfl, heapifyDownFrom_perm rest 0, rfl⟩

end HeapLemmas

/-!
## Claims about the priority queue
-/

unseal heapifyUpFrom heapifyDownFrom in
/-- C1: the min-heap invariant does not survive `shift`. Pushing keys
5, 3, 8, 1, 4 builds the valid heap `[1, 3, 8, 5, 4]`, but one `shift`
(`items.shift()` followed by `heapifyDown`) leaves `[3, 8, 5, 4]`, where
the element at index 3 (key 4) is smaller than its parent at index 1
(key 8): the invariant claimed to hold after every operation is false
after this pop. -/
theorem C1_pop_breaks_heap_invariant :
    pushAll ⟨[], none⟩ [(5, 0), (3, 1), (8, 2), (1, 3), (4, 4)] =
      .ok ⟨[⟨1, 3⟩, ⟨3, 1⟩, ⟨8, 2⟩, ⟨5, 0⟩, ⟨4, 4⟩], none⟩ ∧
    heapInv ([⟨1, 3⟩, ⟨3, 1⟩, ⟨8, 2⟩, ⟨5, 0⟩, ⟨4, 4⟩] : List Task) ∧
    (⟨[⟨1, 3⟩, ⟨3, 1⟩, ⟨8, 2⟩, ⟨5, 0⟩, ⟨4, 4⟩], none⟩ : BinaryHeap Task).shift =
      .ok (⟨1, 3⟩, ⟨[⟨3, 1⟩, ⟨8, 2⟩, ⟨5, 0⟩, ⟨4, 4⟩], none⟩) ∧
    ¬ heapInv ([⟨3, 1⟩, ⟨8, 2⟩, ⟨5, 0⟩, ⟨4, 4⟩] : List Task) :=
  ⟨by rfl, by decide, by rfl, by decide⟩

unseal heapifyUpFrom heapifyDownFrom in
/-- C2: `pop` does not always return the minimum-key item. Pushing keys
0, 5, 1, 6, 7, 2, 3 and popping three times leaves the array
`[5, 7, 6, 3]`; the fourth `shift` returns the task with key 5 even
though the task with key 3 is still held. -/
theorem C2_pop_returns_non_minimum :
    pushAll ⟨[], none⟩ [(0, 0), (5, 1), (1, 2), (6, 3), (7, 4), (2, 5), (3, 6)] =
      .ok ⟨[⟨0, 0⟩, ⟨5, 1⟩, ⟨1, 2⟩, ⟨6, 3⟩, ⟨7, 4⟩, ⟨2, 5⟩, ⟨3, 6⟩], none⟩ ∧
    shiftN 3 ⟨[⟨0, 0⟩, ⟨5, 1⟩, ⟨1, 2⟩, ⟨6, 3⟩, ⟨7, 4⟩, ⟨2, 5⟩, ⟨3, 6⟩], none⟩ =
      .ok ⟨[⟨5, 1⟩, ⟨7, 4⟩, ⟨6, 3⟩, ⟨3, 6⟩], none⟩ ∧
    (⟨[⟨5, 1⟩, ⟨7, 4⟩, ⟨6, 3⟩, ⟨3, 6⟩], none⟩ : BinaryHeap Task).shift =
      .ok (⟨5, 1⟩, ⟨[⟨3, 6⟩, ⟨6, 3⟩, ⟨7, 4⟩], none⟩) ∧
    (⟨3, 6⟩ : Task) ∈ ([⟨5, 1⟩, ⟨7, 4⟩, ⟨6, 3⟩, ⟨3, 6⟩] : List Task) ∧
    (⟨3, 6⟩ : Task).ms < (⟨5, 1⟩ : Task).ms :=
  ⟨by rfl, by rfl, by rfl, by decide, by decide⟩

unseal heapifyUpFrom in
/-- C3 as stated is false at capacity 1: the second (the `(c+1)`-th)
insertion succeeds; only the third fails. -/
theorem C3_counterexample :
    pushAll ⟨[], some 1⟩ [(5, 0), (6, 1)] = .ok ⟨[⟨5, 0⟩, ⟨6, 1⟩], some 1⟩ ∧
    (⟨[⟨5, 0⟩, ⟨6, 1⟩], some 1⟩ : BinaryHeap Task).push ⟨7, 2⟩ =
      .error .capacityExceeded :=
  ⟨by rfl, by rfl⟩

/-- C3 amended: the check performed before insertion is `size > capacity`,
so a push fails with `CapacityExceeded` exactly when the current size
already exceeds the capacity; sizes up to `c + 1` are acceptable, and from
an empty queue the `(c + 2)`-th insertion (net of pops) is the first to
fail. -/
theorem C3_amended_capacity_check (h : BinaryHeap Task) (c : Nat) (t : Task)
    (hcap : h.capacity = some c) :
    if c < h.items.length then h.push t = .error .capacityExceeded
    else h.push t = .ok ⟨heapifyUp (h.items ++ [t]), h.capacity⟩ ∧
      (heapifyUp (h.items ++ [t])).length = h.items.length + 1 := by
  unfold BinaryHeap.push capacityHit BinaryHeap.size
  rw [hcap]
  by_cases hlt : c < h.items.length
  · rw [if_pos hlt, if_pos (by simpa using hlt)]
  · rw [if_neg hlt, if_neg (by simpa using hlt)]
    refine ⟨rfl, ?_⟩
    unfold heapifyUp
    rw [heapifyUpFrom_length _ _ (by simp)]
    simp

unseal heapifyUpFrom in
theorem C3_amended_witness :
    (if 1 < ([⟨5, 0⟩, ⟨6, 1⟩] : List Task).length then
      (⟨[⟨5, 0⟩, ⟨6, 1⟩], some 1⟩ : BinaryHeap Task).push ⟨7, 2⟩ =
        .error .capacityExceeded
    else (⟨[⟨5, 0⟩, ⟨6, 1⟩], some 1⟩ : BinaryHeap Task).push ⟨7, 2⟩ =
        .ok ⟨heapifyUp ([⟨5, 0⟩, ⟨6, 1⟩] ++ [⟨7, 2⟩]), some 1⟩ ∧
      (heapifyUp (([⟨5, 0⟩, ⟨6, 1⟩] : List Task) ++ [⟨7, 2⟩])).length =
        ([⟨5, 0⟩, ⟨6, 1⟩] : List Task).length + 1) :=
  C3_amended_capacity_check ⟨[⟨5, 0⟩, ⟨6, 1⟩], some 1⟩ 1 ⟨7, 2⟩ rfl

/-- C6: on an empty queue `pop` (`shift`) indeed fails with the
`EmptyQueue` error, but `peek` performs no emptiness check: it evaluates
`this.items[0]` and hands back `undefined` (modelled `none`) instead of
failing. -/
theorem C6_empty_pop_fails_but_peek_returns_undefined (h : BinaryHeap Task)
    (he : h.items = []) :
    h.shift = .error .emptyQueue ∧ h.peek = none := by
  unfold BinaryHeap.shift BinaryHeap.peek
  rw [he]
  exact ⟨rfl, rfl⟩

theorem C6_witness :
    (⟨[], some 16⟩ : BinaryHeap Task).shift = .error .emptyQueue ∧
    (⟨[], some 16⟩ : BinaryHeap Task).peek = none :=
  C6_empty_pop_fails_but_peek_returns_undefined ⟨[], some 16⟩ rfl

unseal heapifyDownFrom siftDownSpec in
/-- C7 as stated is false at a tie: on `[5, 5]` the current node's key
equals the smaller (only) child's key, so the described walk stops and
leaves the array unchanged, but the source's `heapifyDown` breaks only on
a strictly greater child and swaps the two equal-keyed elements. -/
theorem C7_counterexample :
    heapifyDownFrom ([⟨5, 0⟩, ⟨5, 1⟩] : List Task) 0 = [⟨5, 1⟩, ⟨5, 0⟩] ∧
    siftDownSpec ([⟨5, 0⟩, ⟨5, 1⟩] : List Task) 0 = [⟨5, 0⟩, ⟨5, 1⟩] ∧
    ([⟨5, 1⟩, ⟨5, 0⟩] : List Task) ≠ [⟨5, 0⟩, ⟨5, 1⟩] :=
  ⟨by rfl, by rfl, by decide⟩

/-- C7 amended: the sift-down after removal picks the smaller child (the
right child winning a tie only when strictly smaller) and stops only when
the current node's key is strictly less than the smaller child's key;
when the keys are equal or the current is greater it swaps and
continues. The source's `heapifyDown` walk agrees with this description
on every array and start index. -/
theorem C7_amended_strict_stop (l : List Task) (i : Nat) :
    heapifyDownFrom l i = siftDownAmended l i := by
  induction l, i using heapifyDownFrom.induct with
  | case1 l i h hgt =>
    rw [heapifyDownFrom, siftDownAmended, dif_pos h, dif_pos h, if_pos hgt,
      if_pos hgt]
  | case2 l i h hgt ih =>
    rw [heapifyDownFrom, siftDownAmended, dif_pos h, dif_pos h, if_neg hgt,
      if_neg hgt, ih]
  | case3 l i h =>
    rw [heapifyDownFrom, siftDownAmended, dif_neg h, dif_neg h]

/-- C10: on any queue state satisfying the min-heap invariant, a
successful `push` (append then sift up, which swaps upward while the
parent's key is strictly greater) yields a state that again satisfies
the invariant and holds exactly the old items plus the pushed one. -/
theorem C10_push_preserves_invariant_and_items (h : BinaryHeap Task) (t : Task)
    (h' : BinaryHeap Task) (hInv : heapInv h.items) (hok : h.push t = .ok h') :
    heapInv h'.items ∧ h'.items.Perm (t :: h.items) :=
  push_ok_inv hInv hok

unseal heapifyUpFrom in
theorem C10_witness :
    heapInv (⟨[⟨1, 0⟩, ⟨3, 1⟩, ⟨2, 2⟩], none⟩ : BinaryHeap Task).items ∧
    (⟨[⟨1, 0⟩, ⟨3, 1⟩, ⟨2, 2⟩], none⟩ : BinaryHeap Task).items.Perm
      (⟨2, 2⟩ :: (⟨[⟨1, 0⟩, ⟨3, 1⟩], none⟩ : BinaryHeap Task).items) :=
  C10_push_preserves_invariant_and_items ⟨[⟨1, 0⟩, ⟨3, 1⟩], none⟩ ⟨2, 2⟩
    ⟨[⟨1, 0⟩, ⟨3, 1⟩, ⟨2, 2⟩], none⟩ (by decide) (by rfl)

/-!
## Scheduler infrastructure lemmas
-/

theorem LTask.size_def (t : LTask) :
    t.size = 1 + sizeL t.macroSpawns + sizeL t.microSpawns + sizeL t.animSpawns := rfl

theorem sizeL_cons (t : LTask) (r : List LTask) :
    sizeL (t :: r) = t.size + sizeL r := by
  cases t with
  | mk tg m ma mi an f =>
    rw [sizeL, LTask.size_def]
    simp [LTask.macroSpawns, LTask.microSpawns, LTask.animSpawns]

theorem LTask.size_pos (t : LTask) : 0 < t.size := by
  rw [LTask.size_def]
  omega

theorem sizeL_eq_map_sum (l : List LTask) : sizeL l = (l.map LTask.size).sum := by
  induction l with
  | nil => rw [sizeL]; rfl
  | cons t r ih => rw [sizeL_cons, List.map_cons, List.sum_cons, ih]

theorem sizeL_perm {a b : List LTask} (hp : a.Perm b) : sizeL a = sizeL b := by
  rw [sizeL_eq_map_sum, sizeL_eq_map_sum]
  exact (hp.map _).sum_eq

theorem sizeL_eq_zero {l : List LTask} : sizeL l = 0 ↔ l = [] := by
  cases l with
  | nil => simp [sizeL]
  | cons t r =>
    rw [sizeL_cons]
    have := LTask.size_pos t
    constructor
    · intro hh
      omega
    · intro hh
      cases hh

theorem push_ok_perm {α : Type} [Inhabited α] [MsOf α] {h : BinaryHeap α} {t : α}
    {h' : BinaryHeap α} (hok : h.push t = .ok h') :
    h'.items.Perm (t :: h.items) ∧ h'.capacity = h.capacity := by
  unfold BinaryHeap.push at hok
  by_cases hcap : capacityHit h.capacity h.size
  · rw [if_pos hcap] at hok
    cases hok
  · rw [if_neg hcap] at hok
    cases hok
    refine ⟨?_, rfl⟩
    show (heapifyUp (h.items ++ [t])).Perm (t :: h.items)
    unfold heapifyUp
    have hl : (h.items ++ [t]).length - 1 < (h.items ++ [t]).length := by
      simp
    exact (heapifyUpFrom_perm _ _ hl).trans (List.perm_append_singleton t h.items)

theorem push_ok_sizeL {q : BinaryHeap LTask} {t : LTask} {q' : BinaryHeap LTask}
    (hok : q.push t = .ok q') : sizeL q'.items = t.size + sizeL q.items := by
  have hp := (push_ok_perm hok).1
  rw [sizeL_perm hp, sizeL_cons]

theorem pushTasks_sizeL (ts : List LTask) (q : BinaryHeap LTask) :
    sizeL (pushTasks q ts).1.items ≤ sizeL q.items + sizeL ts := by
  induction ts generalizing q with
  | nil => simp [pushTasks, sizeL]
  | cons t r ih =>
    rw [sizeL_cons]
    unfold pushTasks
    cases hq : q.push t with
    | error e => simpa using Nat.le_add_right _ _
    | ok q' =>
      have := ih q'
      rw [push_ok_sizeL hq] at this
      simpa using le_trans this (by omega)

theorem stateMeasure_ignores_paint (s : EventLoop) (n : Nat) :
    stateMeasure { s with lastPaintTime := n } = stateMeasure s := rfl

theorem execAction_measure (s : EventLoop) (t : LTask) :
    stateMeasure (execAction s t).1 + 1 ≤ stateMeasure s + t.size := by
  have h1 := pushTasks_sizeL t.macroSpawns s.macroTaskQueue
  have h2 := pushTasks_sizeL t.microSpawns s.microTaskQueue
  have h3 := pushTasks_sizeL t.animSpawns s.animationQueue
  rw [LTask.size_def]
  cases hb1 : (pushTasks s.macroTaskQueue t.macroSpawns).2 <;>
    cases hb2 : (pushTasks s.microTaskQueue t.microSpawns).2 <;>
      cases hb3 : (pushTasks s.animationQueue t.animSpawns).2 <;>
        cases hb4 : t.fails <;>
          simp [execAction, hb1, hb2, hb3, hb4, stateMeasure] <;> omega

theorem shift_eq {α : Type} [Inhabited α] [MsOf α] (h : BinaryHeap α) (t : α)
    (rest : List α) (he : h.items = t :: rest) :
    h.shift = .ok (t, ⟨heapifyDownFrom rest 0, h.capacity⟩) := by
  unfold BinaryHeap.shift
  rw [he]

theorem hasItems_true_iff {α : Type} (q : BinaryHeap α) :
    q.hasItems = true ↔ q.items ≠ [] := by
  unfold BinaryHeap.hasItems BinaryHeap.size
  cases q.items <;> simp

theorem hasItems_false_iff {α : Type} (q : BinaryHeap α) :
    q.hasItems = false ↔ q.items = [] := by
  unfold BinaryHeap.hasItems BinaryHeap.size
  cases q.items <;> simp

theorem execAction_lastPaint (s : EventLoop) (t : LTask) :
    (execAction s t).1.lastPaintTime = s.lastPaintTime := by
  cases hb1 : (pushTasks s.macroTaskQueue t.macroSpawns).2 <;>
    cases hb2 : (pushTasks s.microTaskQueue t.microSpawns).2 <;>
      cases hb3 : (pushTasks s.animationQueue t.animSpawns).2 <;>
        cases hb4 : t.fails <;>
          simp [execAction, hb1, hb2, hb3, hb4]

theorem setQ_lastPaint (k : QueueKind) (s : EventLoop) (q : BinaryHeap LTask) :
    (setQ k s q).lastPaintTime = s.lastPaintTime := by
  cases k <;> rfl

theorem executeQ_lastPaint (k : QueueKind) (s : EventLoop) :
    (executeQ k s).1.lastPaintTime = s.lastPaintTime := by
  unfold executeQ
  cases hs : (getQ k s).shift with
  | error e => rfl
  | ok p =>
    show (execAction (setQ k s p.2) p.1).1.lastPaintTime = s.lastPaintTime
    rw [execAction_lastPaint, setQ_lastPaint]

theorem executeQ_measure (k : QueueKind) (s : EventLoop)
    (hk : (getQ k s).hasItems = true) :
    stateMeasure (executeQ k s).1 < stateMeasure s := by
  obtain ⟨t, rest, he⟩ : ∃ t rest, (getQ k s).items = t :: rest := by
    have := (hasItems_true_iff _).mp hk
    cases hx : (getQ k s).items with
    | nil => exact absurd hx this
    | cons a b => exact ⟨a, b, rfl⟩
  unfold executeQ
  rw [shift_eq _ t rest he]
  show stateMeasure (execAction (setQ k s ⟨heapifyDownFrom rest 0, _⟩) t).1 <
    stateMeasure s
  have hrest : sizeL (heapifyDownFrom rest 0) = sizeL rest :=
    sizeL_perm (heapifyDownFrom_perm rest 0)
  have hitems : sizeL (getQ k s).items = t.size + sizeL rest := by
    rw [he, sizeL_cons]
  have hset : stateMeasure (setQ k s ⟨heapifyDownFrom rest 0, (getQ k s).capacity⟩)
      + t.size = stateMeasure s := by
    cases k <;>
      simp only [setQ, getQ, stateMeasure] at * <;>
        omega
  have hact := execAction_measure
    (setQ k s ⟨heapifyDownFrom rest 0, (getQ k s).capacity⟩) t
  omega

theorem withPre_isSettled (tr0 : List Event) (r : LoopRes) :
    (r.withPre tr0).isSettled = r.isSettled := by
  cases r <;> rfl

theorem drainQ_empty_ok (k : QueueKind) (fuel : Nat) (s : EventLoop)
    (hk : (getQ k s).hasItems = false) :
    drainQ k fuel s = .ok s [] := by
  cases fuel with
  | zero =>
    unfold drainQ
    rw [hk]
    rfl
  | succ f =>
    unfold drainQ
    rw [hk]
    rfl

theorem drainQ_settles (k : QueueKind) (fuel : Nat) (s : EventLoop)
    (hm : stateMeasure s ≤ fuel) :
    (drainQ k fuel s).isSettled = true := by
  induction fuel generalizing s with
  | zero =>
    have hz : stateMeasure s = 0 := by omega
    have hk : (getQ k s).items = [] := by
      apply sizeL_eq_zero.mp
      cases k <;> simp only [getQ, stateMeasure] at * <;> omega
    rw [drainQ_empty_ok k 0 s ((hasItems_false_iff _).mpr hk)]
    rfl
  | succ f ih =>
    cases hk : (getQ k s).hasItems with
    | false =>
      rw [drainQ_empty_ok k (f + 1) s hk]
      rfl
    | true =>
      unfold drainQ
      rw [hk]
      simp only [if_true]
      cases hx : executeQ k s with
      | mk s' p =>
        cases p with
        | mk tr oe =>
          cases oe with
          | some e => rfl
          | none =>
            rw [withPre_isSettled]
            apply ih
            have := executeQ_measure k s hk
            rw [hx] at this
            simp only at this
            omega

theorem drainQ_ok_empty (k : QueueKind) (fuel : Nat) (s s' : EventLoop)
    (tr : List Event) (hok : drainQ k fuel s = .ok s' tr) :
    (getQ k s').hasItems = false := by
  induction fuel generalizing s tr with
  | zero =>
    unfold drainQ at hok
    cases hk : (getQ k s).hasItems with
    | false =>
      rw [hk] at hok
      simp only [Bool.false_eq_true, if_false] at hok
      cases hok
      exact hk
    | true =>
      rw [hk] at hok
      simp only [if_true] at hok
      cases hok
  | succ f ih =>
    unfold drainQ at hok
    cases hk : (getQ k s).hasItems with
    | false =>
      rw [hk] at hok
      simp only [Bool.false_eq_true, if_false] at hok
      cases hok
      exact hk
    | true =>
      rw [hk] at hok
      simp only [if_true] at hok
      cases hx : executeQ k s with
      | mk s1 p =>
        rw [hx] at hok
        cases p with
        | mk tr1 oe =>
          cases oe with
          | some e => simp at hok
          | none =>
            have hok2 : LoopRes.withPre tr1 (drainQ k f s1) = LoopRes.ok s' tr :=
              hok
            cases hd : drainQ k f s1 with
            | ok s2 tr2 =>
              rw [hd] at hok2
              unfold LoopRes.withPre at hok2
              cases hok2
              exact ih s1 tr2 hd
            | fail s2 tr2 e =>
              rw [hd] at hok2
              unfold LoopRes.withPre at hok2
              cases hok2
            | fuelOut s2 tr2 =>
              rw [hd] at hok2
              unfold LoopRes.withPre at hok2
              cases hok2

theorem withPre_resState (tr0 : List Event) (r : LoopRes) :
    (r.withPre tr0).resState = r.resState := by
  cases r <;> rfl

theorem withPre_resTrace (tr0 : List Event) (r : LoopRes) :
    (r.withPre tr0).resTrace = tr0 ++ r.resTrace := by
  cases r <;> rfl

theorem withPre_ok_inv {tr0 : List Event} {r : LoopRes} {s' : EventLoop}
    {tr : List Event} (h : r.withPre tr0 = .ok s' tr) :
    ∃ tr1, r = .ok s' tr1 ∧ tr = tr0 ++ tr1 := by
  cases r with
  | ok a b =>
    unfold LoopRes.withPre at h
    cases h
    exact ⟨b, rfl, rfl⟩
  | fail a b e => unfold LoopRes.withPre at h; cases h
  | fuelOut a b => unfold LoopRes.withPre at h; cases h

theorem withPre_fail_inv {tr0 : List Event} {r : LoopRes} {s' : EventLoop}
    {tr : List Event} {e : LoopError} (h : r.withPre tr0 = .fail s' tr e) :
    ∃ tr1, r = .fail s' tr1 e ∧ tr = tr0 ++ tr1 := by
  cases r with
  | ok a b => unfold LoopRes.withPre at h; cases h
  | fail a b e' =>
    unfold LoopRes.withPre at h
    cases h
    exact ⟨b, rfl, rfl⟩
  | fuelOut a b => unfold LoopRes.withPre at h; cases h

theorem executeQ_events (k : QueueKind) (s : EventLoop) :
    ∀ e ∈ (executeQ k s).2.1, ∃ tg, e = .ran k tg := by
  unfold executeQ
  cases hs : (getQ k s).shift with
  | error err => intro e he; simp at he
  | ok p =>
    intro e he
    simp only [List.mem_singleton] at he
    exact ⟨p.1.tag, he⟩

theorem drainQ_resState_lastPaint (k : QueueKind) (fuel : Nat) (s : EventLoop) :
    (drainQ k fuel s).resState.lastPaintTime = s.lastPaintTime := by
  induction fuel generalizing s with
  | zero =>
    unfold drainQ
    cases hk : (getQ k s).hasItems <;> simp [LoopRes.resState]
  | succ f ih =>
    unfold drainQ
    cases hk : (getQ k s).hasItems with
    | false => simp [LoopRes.resState]
    | true =>
      simp only [if_true]
      cases hx : executeQ k s with
      | mk s1 p =>
        cases p with
        | mk tr1 oe =>
          have hlp : s1.lastPaintTime = s.lastPaintTime := by
            have := executeQ_lastPaint k s
            rw [hx] at this
            exact this
          cases oe with
          | some e => simpa [LoopRes.resState] using hlp
          | none =>
            rw [withPre_resState]
            rw [ih s1]
            exact hlp

theorem drainQ_resState_measure (k : QueueKind) (fuel : Nat) (s : EventLoop) :
    stateMeasure (drainQ k fuel s).resState ≤ stateMeasure s := by
  induction fuel generalizing s with
  | zero =>
    unfold drainQ
    cases hk : (getQ k s).hasItems <;> simp [LoopRes.resState]
  | succ f ih =>
    unfold drainQ
    cases hk : (getQ k s).hasItems with
    | false => simp [LoopRes.resState]
    | true =>
      simp only [if_true]
      cases hx : executeQ k s with
      | mk s1 p =>
        have hm : stateMeasure s1 < stateMeasure s := by
          have := executeQ_measure k s hk
          rw [hx] at this
          exact this
        cases p with
        | mk tr1 oe =>
          cases oe with
          | some e => simpa [LoopRes.resState] using le_of_lt hm
          | none =>
            rw [withPre_resState]
            exact le_trans (ih s1) (le_of_lt hm)

theorem drainQ_ok_strict {k : QueueKind} {fuel : Nat} {s s' : EventLoop}
    {tr : List Event} (hok : drainQ k fuel s = .ok s' tr)
    (hk : (getQ k s).hasItems = true) : stateMeasure s' < stateMeasure s := by
  cases fuel with
  | zero =>
    unfold drainQ at hok
    rw [hk] at hok
    simp at hok
  | succ f =>
    unfold drainQ at hok
    rw [hk] at hok
    simp only [if_true] at hok
    cases hx : executeQ k s with
    | mk s1 p =>
      rw [hx] at hok
      have hm : stateMeasure s1 < stateMeasure s := by
        have := executeQ_measure k s hk
        rw [hx] at this
        exact this
      cases p with
      | mk tr1 oe =>
        cases oe with
        | some e => simp at hok
        | none =>
          have hok2 : (drainQ k f s1).withPre tr1 = .ok s' tr := hok
          obtain ⟨tr2, hd, -⟩ := withPre_ok_inv hok2
          have := drainQ_resState_measure k f s1
          rw [hd] at this
          exact lt_of_le_of_lt this hm

theorem drainQ_events (k : QueueKind) (fuel : Nat) (s : EventLoop) :
    ∀ e ∈ (drainQ k fuel s).resTrace, ∃ tg, e = .ran k tg := by
  induction fuel generalizing s with
  | zero =>
    unfold drainQ
    cases hk : (getQ k s).hasItems <;> simp [LoopRes.resTrace]
  | succ f ih =>
    unfold drainQ
    cases hk : (getQ k s).hasItems with
    | false => simp [LoopRes.resTrace]
    | true =>
      simp only [if_true]
      cases hx : executeQ k s with
      | mk s1 p =>
        have hev : ∀ e ∈ p.1, ∃ tg, e = .ran k tg := by
          have := executeQ_events k s
          rw [hx] at this
          exact this
        cases p with
        | mk tr1 oe =>
          cases oe with
          | some e => simpa [LoopRes.resTrace] using hev
          | none =>
            rw [withPre_resTrace]
            intro e he
            rcases List.mem_append.mp he with h1 | h2
            · exact hev e h1
            · exact ih s1 e h2

theorem drainQ_mono {k : QueueKind} {f : Nat} {s : EventLoop}
    (hset : (drainQ k f s).isSettled = true) {g : Nat} (hfg : f ≤ g) :
    drainQ k g s = drainQ k f s := by
  induction f generalizing s g with
  | zero =>
    cases hk : (getQ k s).hasItems with
    | false => rw [drainQ_empty_ok k g s hk, drainQ_empty_ok k 0 s hk]
    | true =>
      unfold drainQ at hset
      rw [hk] at hset
      simp [LoopRes.isSettled] at hset
  | succ f ih =>
    cases g with
    | zero => omega
    | succ g' =>
      have hfg' : f ≤ g' := by omega
      cases hk : (getQ k s).hasItems with
      | false => rw [drainQ_empty_ok k (g' + 1) s hk, drainQ_empty_ok k (f + 1) s hk]
      | true =>
        unfold drainQ at hset ⊢
        rw [hk] at hset ⊢
        simp only [if_true] at hset ⊢
        cases hx : executeQ k s with
        | mk s1 p =>
          rw [hx] at hset
          cases p with
          | mk tr1 oe =>
            cases oe with
            | some e => rfl
            | none =>
              have hset2 : ((drainQ k f s1).withPre tr1).isSettled = true := hset
              rw [withPre_isSettled] at hset2
              show (drainQ k g' s1).withPre tr1 = (drainQ k f s1).withPre tr1
              rw [ih hset2 hfg']

theorem phase1_macro_false {s : EventLoop} (h : s.macroTaskQueue.hasItems = false) :
    phase1 s = (s, [], none) := by
  unfold phase1
  rw [h]
  rfl

theorem phase1_macro_true {s : EventLoop} (h : s.macroTaskQueue.hasItems = true) :
    phase1 s = executeQ .macroQ s := by
  unfold phase1
  rw [h]
  rfl

theorem phase1_measure_le (s : EventLoop) :
    stateMeasure (phase1 s).1 ≤ stateMeasure s := by
  cases h : s.macroTaskQueue.hasItems with
  | false => rw [phase1_macro_false h]
  | true =>
    rw [phase1_macro_true h]
    exact le_of_lt (executeQ_measure .macroQ s h)

theorem phase1_strict {s : EventLoop} (h : s.macroTaskQueue.hasItems = true) :
    stateMeasure (phase1 s).1 < stateMeasure s := by
  rw [phase1_macro_true h]
  exact executeQ_measure .macroQ s h

theorem phase1_lastPaint (s : EventLoop) :
    (phase1 s).1.lastPaintTime = s.lastPaintTime := by
  cases h : s.macroTaskQueue.hasItems with
  | false => rw [phase1_macro_false h]
  | true =>
    rw [phase1_macro_true h]
    exact executeQ_lastPaint .macroQ s

theorem phase1_events (s : EventLoop) :
    ∀ e ∈ (phase1 s).2.1, ∃ tg, e = .ran .macroQ tg := by
  cases h : s.macroTaskQueue.hasItems with
  | false =>
    rw [phase1_macro_false h]
    intro e he
    simp at he
  | true =>
    rw [phase1_macro_true h]
    exact executeQ_events .macroQ s

theorem iteration_some_eq {s s1 : EventLoop} {tr1 : List Event} {e : LoopError}
    (hp : phase1 s = (s1, tr1, some e)) (fuel nC nR : Nat) :
    iteration fuel nC nR s = .fail s1 tr1 e := by
  unfold iteration
  rw [hp]

theorem iteration_none_eq {s s1 : EventLoop} {tr1 : List Event}
    (hp : phase1 s = (s1, tr1, none)) (fuel nC nR : Nat) :
    iteration fuel nC nR s =
      (match drainQ .microQ fuel s1 with
       | .fail s2 tr2 e => LoopRes.fail s2 (tr1 ++ tr2) e
       | .fuelOut s2 tr2 => LoopRes.fuelOut s2 (tr1 ++ tr2)
       | .ok s2 tr2 => (phase3 fuel nC nR s2).withPre (tr1 ++ tr2)) := by
  unfold iteration
  rw [hp]

theorem phase3_closed {nC : Nat} {s2 : EventLoop}
    (h : s2.isPainting nC = false) (fuel nR : Nat) :
    phase3 fuel nC nR s2 = .ok s2 [] := by
  unfold phase3
  rw [h]
  rfl

theorem phase3_settles (fuel nC nR : Nat) (s2 : EventLoop)
    (hm : stateMeasure s2 ≤ fuel) : (phase3 fuel nC nR s2).isSettled = true := by
  unfold phase3
  by_cases hpaint : s2.isPainting nC = true
  · rw [if_pos hpaint]
    have hset := drainQ_settles .animQ fuel s2 hm
    cases ha : drainQ .animQ fuel s2 with
    | fuelOut s3 tr3 => rw [ha] at hset; simp [LoopRes.isSettled] at hset
    | fail s3 tr3 e => rfl
    | ok s3 tr3 => rfl
  · rw [if_neg hpaint]
    rfl

theorem phase3_mono {fuel nC nR : Nat} {s2 : EventLoop}
    (hset : (phase3 fuel nC nR s2).isSettled = true) {g : Nat} (hfg : fuel ≤ g) :
    phase3 g nC nR s2 = phase3 fuel nC nR s2 := by
  by_cases hpaint : s2.isPainting nC = true
  · cases ha : drainQ .animQ fuel s2 with
    | fuelOut s3 tr3 =>
      have hout : phase3 fuel nC nR s2 = .fuelOut s3 tr3 := by
        unfold phase3
        rw [if_pos hpaint, ha]
      rw [hout] at hset
      simp [LoopRes.isSettled] at hset
    | fail s3 tr3 e =>
      have hds : (drainQ .animQ fuel s2).isSettled = true := by rw [ha]; rfl
      unfold phase3
      rw [if_pos hpaint, if_pos hpaint, drainQ_mono hds hfg]
    | ok s3 tr3 =>
      have hds : (drainQ .animQ fuel s2).isSettled = true := by rw [ha]; rfl
      unfold phase3
      rw [if_pos hpaint, if_pos hpaint, drainQ_mono hds hfg]
  · unfold phase3
    rw [if_neg hpaint, if_neg hpaint]

theorem phase3_measure (fuel nC nR : Nat) (s2 : EventLoop) :
    stateMeasure (phase3 fuel nC nR s2).resState ≤ stateMeasure s2 := by
  unfold phase3
  by_cases hpaint : s2.isPainting nC = true
  · rw [if_pos hpaint]
    have hle := drainQ_resState_measure .animQ fuel s2
    cases ha : drainQ .animQ fuel s2 with
    | fuelOut s3 tr3 => rw [ha] at hle; simpa [LoopRes.resState] using hle
    | fail s3 tr3 e => rw [ha] at hle; simpa [LoopRes.resState] using hle
    | ok s3 tr3 =>
      rw [ha] at hle
      simp only [LoopRes.resState] at hle ⊢
      rw [stateMeasure_ignores_paint]
      exact hle
  · rw [if_neg hpaint]
    exact le_refl _

theorem iter_settles (fuel nC nR : Nat) (s : EventLoop)
    (hm : stateMeasure s ≤ fuel) : (iteration fuel nC nR s).isSettled = true := by
  cases hp : phase1 s with
  | mk s1 p =>
    have hm1 : stateMeasure s1 ≤ stateMeasure s := by
      have := phase1_measure_le s
      rw [hp] at this
      exact this
    cases p with
    | mk tr1 oe =>
      cases oe with
      | some e => rw [iteration_some_eq hp]; rfl
      | none =>
        rw [iteration_none_eq hp]
        have hset2 : (drainQ .microQ fuel s1).isSettled = true :=
          drainQ_settles _ _ _ (by omega)
        cases hd : drainQ .microQ fuel s1 with
        | fuelOut s2 tr2 => rw [hd] at hset2; simp [LoopRes.isSettled] at hset2
        | fail s2 tr2 e => rfl
        | ok s2 tr2 =>
          have hm2 : stateMeasure s2 ≤ stateMeasure s1 := by
            have := drainQ_resState_measure .microQ fuel s1
            rw [hd] at this
            exact this
          show ((phase3 fuel nC nR s2).withPre (tr1 ++ tr2)).isSettled = true
          rw [withPre_isSettled]
          exact phase3_settles fuel nC nR s2 (by omega)

theorem iter_mono {fuel nC nR : Nat} {s : EventLoop}
    (hset : (iteration fuel nC nR s).isSettled = true) {g : Nat} (hfg : fuel ≤ g) :
    iteration g nC nR s = iteration fuel nC nR s := by
  cases hp : phase1 s with
  | mk s1 p =>
    cases p with
    | mk tr1 oe =>
      cases oe with
      | some e => rw [iteration_some_eq hp, iteration_some_eq hp]
      | none =>
        rw [iteration_none_eq hp fuel nC nR] at hset
        rw [iteration_none_eq hp g nC nR, iteration_none_eq hp fuel nC nR]
        cases hd : drainQ .microQ fuel s1 with
        | fuelOut s2 tr2 =>
          rw [hd] at hset
          simp [LoopRes.isSettled] at hset
        | fail s2 tr2 e =>
          have hds : (drainQ .microQ fuel s1).isSettled = true := by rw [hd]; rfl
          rw [drainQ_mono hds hfg, hd]
        | ok s2 tr2 =>
          have hds : (drainQ .microQ fuel s1).isSettled = true := by rw [hd]; rfl
          rw [drainQ_mono hds hfg, hd]
          rw [hd] at hset
          have hset3 : (phase3 fuel nC nR s2).isSettled = true := by
            have hset2 : ((phase3 fuel nC nR s2).withPre (tr1 ++ tr2)).isSettled
                = true := hset
            rw [withPre_isSettled] at hset2
            exact hset2
          show (phase3 g nC nR s2).withPre (tr1 ++ tr2) =
            (phase3 fuel nC nR s2).withPre (tr1 ++ tr2)
          rw [phase3_mono hset3 hfg]

theorem iter_progress {fuel nC nR : Nat} {s s' : EventLoop} {tr : List Event}
    (hok : iteration fuel nC nR s = .ok s' tr) (hT : s.hasTasks = true) :
    stateMeasure s' < stateMeasure s ∨ (s' = s ∧ s.isPainting nC = false) := by
  cases hp : phase1 s with
  | mk s1 p =>
    cases p with
    | mk tr1 oe =>
      cases oe with
      | some e => rw [iteration_some_eq hp] at hok; cases hok
      | none =>
        rw [iteration_none_eq hp] at hok
        cases hd : drainQ .microQ fuel s1 with
        | fuelOut s2 tr2 => rw [hd] at hok; cases hok
        | fail s2 tr2 e => rw [hd] at hok; cases hok
        | ok s2 tr2 =>
          rw [hd] at hok
          have hok2 : (phase3 fuel nC nR s2).withPre (tr1 ++ tr2) = .ok s' tr :=
            hok
          obtain ⟨tr3, hph3, htr⟩ := withPre_ok_inv hok2
          have hm2 : stateMeasure s2 ≤ stateMeasure s1 := by
            have := drainQ_resState_measure .microQ fuel s1
            rw [hd] at this
            exact this
          have hm1 : stateMeasure s1 ≤ stateMeasure s := by
            have := phase1_measure_le s
            rw [hp] at this
            exact this
          -- dissect phase 3
          have hph3' := hph3
          unfold phase3 at hph3'
          by_cases hpaint : s2.isPainting nC = true
          · -- gate open: the result state came out of the animation drain
            rw [if_pos hpaint] at hph3'
            have hs'm : stateMeasure s' ≤ stateMeasure s2 := by
              have := phase3_measure fuel nC nR s2
              rw [hph3] at this
              exact this
            -- progress must come from one of the three phases
            cases hmac : s.macroTaskQueue.hasItems with
            | true =>
              left
              have : stateMeasure s1 < stateMeasure s := by
                have := phase1_strict hmac
                rw [hp] at this
                exact this
              omega
            | false =>
              have hs1 : s1 = s := by
                rw [phase1_macro_false hmac] at hp
                cases hp
                rfl
              cases hmic : s.microTaskQueue.hasItems with
              | true =>
                left
                have : stateMeasure s2 < stateMeasure s1 := by
                  apply drainQ_ok_strict hd
                  rw [hs1]
                  exact hmic
                omega
              | false =>
                left
                have hanim : s.animationQueue.hasItems = true := by
                  unfold EventLoop.hasTasks at hT
                  rw [hmac, hmic] at hT
                  simpa using hT
                have hs2 : s2 = s := by
                  rw [hs1] at hd
                  rw [drainQ_empty_ok .microQ fuel s hmic] at hd
                  cases hd
                  rfl
                cases ha : drainQ .animQ fuel s2 with
                | fuelOut s3 tr3' => rw [ha] at hph3'; cases hph3'
                | fail s3 tr3' e => rw [ha] at hph3'; cases hph3'
                | ok s3 tr3' =>
                  rw [ha] at hph3'
                  have : stateMeasure s3 < stateMeasure s2 := by
                    apply drainQ_ok_strict ha
                    rw [hs2]
                    exact hanim
                  cases hph3'
                  rw [stateMeasure_ignores_paint]
                  omega
          · -- gate closed: phase 3 is a no-op
            rw [if_neg hpaint] at hph3'
            cases hph3'
            cases hmac : s.macroTaskQueue.hasItems with
            | true =>
              left
              have : stateMeasure s1 < stateMeasure s := by
                have := phase1_strict hmac
                rw [hp] at this
                exact this
              omega
            | false =>
              have hs1 : s1 = s := by
                rw [phase1_macro_false hmac] at hp
                cases hp
                rfl
              cases hmic : s.microTaskQueue.hasItems with
              | true =>
                left
                have : stateMeasure s' < stateMeasure s1 := drainQ_ok_strict hd
                  (by rw [hs1]; exact hmic)
                omega
              | false =>
                right
                have hs2 : s' = s := by
                  rw [hs1] at hd
                  rw [drainQ_empty_ok .microQ fuel s hmic] at hd
                  cases hd
                  rfl
                refine ⟨hs2, ?_⟩
                rw [hs2] at hpaint
                simpa using hpaint

theorem hasTasks_false_iff (s : EventLoop) :
    s.hasTasks = false ↔ s.macroTaskQueue.items = [] ∧
      s.microTaskQueue.items = [] ∧ s.animationQueue.items = [] := by
  unfold EventLoop.hasTasks
  rw [Bool.or_eq_false_iff, Bool.or_eq_false_iff, hasItems_false_iff,
    hasItems_false_iff, hasItems_false_iff, and_assoc]

theorem isPainting_true_iff (s : EventLoop) (n : Nat) :
    s.isPainting n = true ↔ s.lastPaintTime + 16 ≤ n := by
  unfold EventLoop.isPainting
  rw [decide_eq_true_eq]
  omega

theorem run_empty {s : EventLoop} (h : s.hasTasks = false)
    (times : Nat → Nat × Nat) (n k : Nat) : runLoop times n k s = .ok s [] := by
  cases n with
  | zero =>
    unfold runLoop
    rw [h]
    rfl
  | succ n' =>
    unfold runLoop
    rw [h]
    rfl

theorem runLoop_succ_true {s : EventLoop} (hT : s.hasTasks = true)
    (times : Nat → Nat × Nat) (n k : Nat) :
    runLoop times (n + 1) k s =
      (match iteration n (times k).1 (times k).2 s with
       | .fail s' tr e => LoopRes.fail s' tr e
       | .fuelOut s' tr => LoopRes.fuelOut s' tr
       | .ok s' tr => (runLoop times n (k + 1) s').withPre tr) := by
  conv_lhs => unfold runLoop
  rw [hT]
  rfl

theorem run_mono {times : Nat → Nat × Nat} {n k : Nat} {s : EventLoop}
    (hset : (runLoop times n k s).isSettled = true) {m : Nat} (hnm : n ≤ m) :
    runLoop times m k s = runLoop times n k s := by
  induction n generalizing k s m with
  | zero =>
    cases hT : s.hasTasks with
    | false => rw [run_empty hT, run_empty hT]
    | true =>
      unfold runLoop at hset
      rw [hT] at hset
      simp [LoopRes.isSettled] at hset
  | succ n' ih =>
    cases hT : s.hasTasks with
    | false => rw [run_empty hT, run_empty hT]
    | true =>
      cases m with
      | zero => omega
      | succ m' =>
        have hn'm' : n' ≤ m' := by omega
        rw [runLoop_succ_true hT] at hset
        rw [runLoop_succ_true hT, runLoop_succ_true hT]
        cases hi : iteration n' (times k).1 (times k).2 s with
        | fuelOut s' tr =>
          rw [hi] at hset
          simp [LoopRes.isSettled] at hset
        | fail s' tr e =>
          have hiset : (iteration n' (times k).1 (times k).2 s).isSettled = true := by
            rw [hi]; rfl
          rw [iter_mono hiset hn'm', hi]
        | ok s' tr =>
          have hiset : (iteration n' (times k).1 (times k).2 s).isSettled = true := by
            rw [hi]; rfl
          rw [iter_mono hiset hn'm', hi]
          rw [hi] at hset
          have hset2 : (runLoop times n' (k + 1) s').isSettled = true := by
            have : ((runLoop times n' (k + 1) s').withPre tr).isSettled = true :=
              hset
            rw [withPre_isSettled] at this
            exact this
          show (runLoop times m' (k + 1) s').withPre tr =
            (runLoop times n' (k + 1) s').withPre tr
          rw [ih hset2 hn'm']

theorem run_step_ok (times : Nat → Nat × Nat) {k : Nat} {s s' : EventLoop}
    {tr : List Event} (hT : s.hasTasks = true)
    (hi : iteration (stateMeasure s) (times k).1 (times k).2 s = .ok s' tr)
    (hnext : ∃ n, (runLoop times n (k + 1) s').isSettled = true) :
    ∃ n, (runLoop times n k s).isSettled = true := by
  obtain ⟨n1, hn1⟩ := hnext
  refine ⟨max (stateMeasure s) n1 + 1, ?_⟩
  rw [runLoop_succ_true hT]
  have hiset : (iteration (stateMeasure s) (times k).1 (times k).2 s).isSettled
      = true := by rw [hi]; rfl
  rw [iter_mono hiset (le_max_left _ _), hi]
  show ((runLoop times (max (stateMeasure s) n1) (k + 1) s').withPre tr).isSettled
    = true
  rw [withPre_isSettled, run_mono hn1 (le_max_right _ _)]
  exact hn1

theorem run_step_fail (times : Nat → Nat × Nat) {k : Nat} {s s' : EventLoop}
    {tr : List Event} {e : LoopError} (hT : s.hasTasks = true)
    (hi : iteration (stateMeasure s) (times k).1 (times k).2 s = .fail s' tr e) :
    (runLoop times (stateMeasure s + 1) k s).isSettled = true := by
  rw [runLoop_succ_true hT, hi]
  rfl

theorem run_settles_aux (times : Nat → Nat × Nat) (m : Nat)
    (ih : ∀ s k, stateMeasure s ≤ m → ∃ n, (runLoop times n k s).isSettled = true) :
    ∀ d (s : EventLoop) (k : Nat), stateMeasure s ≤ m + 1 → s.hasTasks = true →
      s.lastPaintTime + 16 ≤ (times (k + d)).1 →
      ∃ n, (runLoop times n k s).isSettled = true := by
  intro d
  induction d with
  | zero =>
    intro s k hm hT hgate
    rw [Nat.add_zero] at hgate
    cases hi : iteration (stateMeasure s) (times k).1 (times k).2 s with
    | fuelOut s' tr =>
      have := iter_settles (stateMeasure s) (times k).1 (times k).2 s le_rfl
      rw [hi] at this
      simp [LoopRes.isSettled] at this
    | fail s' tr e => exact ⟨stateMeasure s + 1, run_step_fail times hT hi⟩
    | ok s' tr =>
      rcases iter_progress hi hT with hlt | ⟨hs', hub⟩
      · exact run_step_ok times hT hi (ih s' (k + 1) (by omega))
      · rw [(isPainting_true_iff s (times k).1).mpr hgate] at hub
        cases hub
  | succ d ihd =>
    intro s k hm hT hgate
    cases hi : iteration (stateMeasure s) (times k).1 (times k).2 s with
    | fuelOut s' tr =>
      have := iter_settles (stateMeasure s) (times k).1 (times k).2 s le_rfl
      rw [hi] at this
      simp [LoopRes.isSettled] at this
    | fail s' tr e => exact ⟨stateMeasure s + 1, run_step_fail times hT hi⟩
    | ok s' tr =>
      rcases iter_progress hi hT with hlt | ⟨hs', hub⟩
      · exact run_step_ok times hT hi (ih s' (k + 1) (by omega))
      · subst hs'
        apply run_step_ok times hT hi
        apply ihd s' (k + 1) hm hT
        have heq : k + 1 + d = k + (d + 1) := by omega
        rw [heq]
        exact hgate

theorem run_settles (times : Nat → Nat × Nat)
    (hfair : ∀ k B, ∃ j, k ≤ j ∧ B ≤ (times j).1) (s : EventLoop) (k : Nat) :
    ∃ n, (runLoop times n k s).isSettled = true := by
  suffices H : ∀ m (s : EventLoop) (k : Nat), stateMeasure s ≤ m →
      ∃ n, (runLoop times n k s).isSettled = true from H (stateMeasure s) s k le_rfl
  intro m
  induction m with
  | zero =>
    intro s k hm
    have hT : s.hasTasks = false := by
      apply (hasTasks_false_iff s).mpr
      unfold stateMeasure at hm
      refine ⟨sizeL_eq_zero.mp (by omega), sizeL_eq_zero.mp (by omega),
        sizeL_eq_zero.mp (by omega)⟩
    exact ⟨0, by rw [run_empty hT]; rfl⟩
  | succ m ih =>
    intro s k hm
    cases hT : s.hasTasks with
    | false => exact ⟨0, by rw [run_empty hT]; rfl⟩
    | true =>
      by_cases hms : stateMeasure s ≤ m
      · exact ih s k hms
      · obtain ⟨j, hkj, hBj⟩ := hfair k (s.lastPaintTime + 16)
        have hd : s.lastPaintTime + 16 ≤ (times (k + (j - k))).1 := by
          rw [Nat.add_sub_cancel' hkj]
          exact hBj
        exact run_settles_aux times m ih (j - k) s k hm hT hd

theorem execAction_err {s : EventLoop} {t : LTask} {e : LoopError}
    (h : (execAction s t).2 = some e) :
    e = .heapErr .capacityExceeded ∨ e = .taskFailed := by
  cases hb1 : (pushTasks s.macroTaskQueue t.macroSpawns).2 <;>
    cases hb2 : (pushTasks s.microTaskQueue t.microSpawns).2 <;>
      cases hb3 : (pushTasks s.animationQueue t.animSpawns).2 <;>
        cases hb4 : t.fails <;>
          simp [execAction, hb1, hb2, hb3, hb4] at h <;> simp [h]

theorem executeQ_err {k : QueueKind} {s : EventLoop} {e : LoopError}
    (hk : (getQ k s).hasItems = true) (h : (executeQ k s).2.2 = some e) :
    e ≠ .heapErr .emptyQueue := by
  obtain ⟨t, rest, he⟩ : ∃ t rest, (getQ k s).items = t :: rest := by
    have := (hasItems_true_iff _).mp hk
    cases hx : (getQ k s).items with
    | nil => exact absurd hx this
    | cons a b => exact ⟨a, b, rfl⟩
  unfold executeQ at h
  rw [shift_eq _ t rest he] at h
  have h2 : (execAction (setQ k s ⟨heapifyDownFrom rest 0, (getQ k s).capacity⟩) t).2
      = some e := h
  rcases execAction_err h2 with h3 | h3 <;> rw [h3] <;> intro hc <;> cases hc

theorem drainQ_fail_err {k : QueueKind} {fuel : Nat} {s s' : EventLoop}
    {tr : List Event} {e : LoopError}
    (h : drainQ k fuel s = .fail s' tr e) : e ≠ .heapErr .emptyQueue := by
  induction fuel generalizing s tr with
  | zero =>
    unfold drainQ at h
    cases hk : (getQ k s).hasItems with
    | false => rw [hk] at h; simp at h
    | true => rw [hk] at h; simp at h
  | succ f ih =>
    unfold drainQ at h
    cases hk : (getQ k s).hasItems with
    | false => rw [hk] at h; simp at h
    | true =>
      rw [hk] at h
      simp only [if_true] at h
      cases hx : executeQ k s with
      | mk s1 p =>
        rw [hx] at h
        cases p with
        | mk tr1 oe =>
          cases oe with
          | some e1 =>
            have h2 : LoopRes.fail s1 tr1 e1 = LoopRes.fail s' tr e := h
            cases h2
            apply executeQ_err hk
            rw [hx]
          | none =>
            have h2 : (drainQ k f s1).withPre tr1 = LoopRes.fail s' tr e := h
            obtain ⟨tr2, hd, -⟩ := withPre_fail_inv h2
            exact ih hd

theorem phase3_fail_err {fuel nC nR : Nat} {s2 s' : EventLoop} {tr : List Event}
    {e : LoopError} (h : phase3 fuel nC nR s2 = .fail s' tr e) :
    e ≠ .heapErr .emptyQueue := by
  unfold phase3 at h
  by_cases hpaint : s2.isPainting nC = true
  · rw [if_pos hpaint] at h
    cases ha : drainQ .animQ fuel s2 with
    | fuelOut s3 tr3 => rw [ha] at h; cases h
    | ok s3 tr3 => rw [ha] at h; cases h
    | fail s3 tr3 e1 =>
      rw [ha] at h
      cases h
      exact drainQ_fail_err ha
  · rw [if_neg hpaint] at h
    cases h

theorem iter_fail_err {fuel nC nR : Nat} {s s' : EventLoop} {tr : List Event}
    {e : LoopError} (h : iteration fuel nC nR s = .fail s' tr e) :
    e ≠ .heapErr .emptyQueue := by
  cases hp : phase1 s with
  | mk s1 p =>
    cases p with
    | mk tr1 oe =>
      cases oe with
      | some e1 =>
        rw [iteration_some_eq hp] at h
        cases h
        cases hmac : s.macroTaskQueue.hasItems with
        | false =>
          rw [phase1_macro_false hmac] at hp
          cases hp
        | true =>
          rw [phase1_macro_true hmac] at hp
          have hk2 : (getQ .macroQ s).hasItems = true := hmac
          apply executeQ_err hk2
          rw [hp]
      | none =>
        rw [iteration_none_eq hp] at h
        cases hd : drainQ .microQ fuel s1 with
        | fuelOut s2 tr2 => rw [hd] at h; cases h
        | fail s2 tr2 e1 =>
          rw [hd] at h
          cases h
          exact drainQ_fail_err hd
        | ok s2 tr2 =>
          rw [hd] at h
          have h2 : (phase3 fuel nC nR s2).withPre (tr1 ++ tr2) =
            LoopRes.fail s' tr e := h
          obtain ⟨tr3, hph, -⟩ := withPre_fail_inv h2
          exact phase3_fail_err hph

theorem run_fail_err {times : Nat → Nat × Nat} {n k : Nat} {s s' : EventLoop}
    {tr : List Event} {e : LoopError}
    (h : runLoop times n k s = .fail s' tr e) : e ≠ .heapErr .emptyQueue := by
  induction n generalizing k s tr with
  | zero =>
    unfold runLoop at h
    cases hT : s.hasTasks with
    | false => rw [hT] at h; simp at h
    | true => rw [hT] at h; simp at h
  | succ n' ih =>
    cases hT : s.hasTasks with
    | false => rw [run_empty hT] at h; cases h
    | true =>
      rw [runLoop_succ_true hT] at h
      cases hi : iteration n' (times k).1 (times k).2 s with
      | fuelOut s1 tr1 => rw [hi] at h; cases h
      | fail s1 tr1 e1 =>
        rw [hi] at h
        cases h
        exact iter_fail_err hi
      | ok s1 tr1 =>
        rw [hi] at h
        have h2 : (runLoop times n' (k + 1) s1).withPre tr1 =
          LoopRes.fail s' tr e := h
        obtain ⟨tr2, hr, -⟩ := withPre_fail_inv h2
        exact ih hr

theorem run_ok_empty {times : Nat → Nat × Nat} {n k : Nat} {s s' : EventLoop}
    {tr : List Event} (h : runLoop times n k s = .ok s' tr) :
    s'.hasTasks = false := by
  induction n generalizing k s tr with
  | zero =>
    unfold runLoop at h
    cases hT : s.hasTasks with
    | false =>
      rw [hT] at h
      simp only [Bool.false_eq_true, if_false] at h
      cases h
      exact hT
    | true => rw [hT] at h; simp at h
  | succ n' ih =>
    cases hT : s.hasTasks with
    | false =>
      rw [run_empty hT] at h
      cases h
      exact hT
    | true =>
      rw [runLoop_succ_true hT] at h
      cases hi : iteration n' (times k).1 (times k).2 s with
      | fuelOut s1 tr1 => rw [hi] at h; cases h
      | fail s1 tr1 e1 => rw [hi] at h; cases h
      | ok s1 tr1 =>
        rw [hi] at h
        have h2 : (runLoop times n' (k + 1) s1).withPre tr1 = LoopRes.ok s' tr := h
        obtain ⟨tr2, hr, -⟩ := withPre_ok_inv h2
        exact ih hr

theorem isRanOn_true_iff (k : QueueKind) (e : Event) :
    isRanOn k e = true ↔ ∃ tg, e = .ran k tg := by
  cases e with
  | ran k' tg =>
    unfold isRanOn
    rw [decide_eq_true_eq]
    constructor
    · intro h
      rw [h]
      exact ⟨tg, rfl⟩
    · intro ⟨tg', h⟩
      cases h
      rfl
  | repaint =>
    unfold isRanOn
    constructor
    · intro h
      cases h
    · intro ⟨tg', h⟩
      cases h

theorem ranCount_append (k : QueueKind) (a b : List Event) :
    ranCount k (a ++ b) = ranCount k a + ranCount k b :=
  List.countP_append ..

theorem repaintCount_append (a b : List Event) :
    repaintCount (a ++ b) = repaintCount a + repaintCount b :=
  List.countP_append ..

theorem ranCount_eq_zero {k : QueueKind} {tr : List Event}
    (h : ∀ e ∈ tr, ∀ tg, e ≠ .ran k tg) : ranCount k tr = 0 := by
  apply List.countP_eq_zero.mpr
  intro e he hp
  obtain ⟨tg, rfl⟩ := (isRanOn_true_iff k e).mp hp
  exact h _ he tg rfl

theorem repaintCount_eq_zero {tr : List Event}
    (h : ∀ e ∈ tr, e ≠ .repaint) : repaintCount tr = 0 := by
  apply List.countP_eq_zero.mpr
  intro e he hp
  cases e with
  | ran k tg => cases hp
  | repaint => exact h _ he rfl

theorem phase3_events (fuel nC nR : Nat) (s2 : EventLoop) :
    ∀ e ∈ (phase3 fuel nC nR s2).resTrace,
      (∃ tg, e = .ran .animQ tg) ∨ e = .repaint := by
  unfold phase3
  by_cases hpaint : s2.isPainting nC = true
  · rw [if_pos hpaint]
    have hev := drainQ_events .animQ fuel s2
    cases ha : drainQ .animQ fuel s2 with
    | fuelOut s3 tr3 =>
      rw [ha] at hev
      intro e he
      exact .inl (hev e he)
    | fail s3 tr3 e1 =>
      rw [ha] at hev
      intro e he
      exact .inl (hev e he)
    | ok s3 tr3 =>
      rw [ha] at hev
      intro e he
      simp only [LoopRes.resTrace] at he hev
      rcases List.mem_append.mp he with h1 | h2
      · exact .inl (hev e h1)
      · rw [List.mem_singleton] at h2
        exact .inr h2
  · rw [if_neg hpaint]
    intro e he
    simp [LoopRes.resTrace] at he

theorem executeQ_nonempty_eq {k : QueueKind} {s : EventLoop} {t : LTask}
    {rest : List LTask} (he : (getQ k s).items = t :: rest) :
    executeQ k s =
      ((execAction (setQ k s ⟨heapifyDownFrom rest 0, (getQ k s).capacity⟩) t).1,
       [.ran k t.tag],
       (execAction (setQ k s ⟨heapifyDownFrom rest 0, (getQ k s).capacity⟩) t).2) := by
  unfold executeQ
  rw [shift_eq _ t rest he]

theorem repaintCount_zero_of_ran {k : QueueKind} {tr : List Event}
    (h : ∀ e ∈ tr, ∃ tg, e = .ran k tg) : repaintCount tr = 0 :=
  repaintCount_eq_zero (fun e he => by
    obtain ⟨tg, rfl⟩ := h e he
    intro hc
    cases hc)

theorem ranCount_zero_of_ran {k k' : QueueKind} {tr : List Event} (hne : k' ≠ k)
    (h : ∀ e ∈ tr, ∃ tg, e = .ran k' tg) : ranCount k tr = 0 :=
  ranCount_eq_zero (fun e he tg hc => by
    obtain ⟨tg', rfl⟩ := h e he
    injection hc with h1 h2
    exact hne h1)

theorem ranCount_zero_of_frame {k : QueueKind} {tr : List Event}
    (hne : QueueKind.animQ ≠ k)
    (h : ∀ e ∈ tr, (∃ tg, e = .ran .animQ tg) ∨ e = .repaint) :
    ranCount k tr = 0 :=
  ranCount_eq_zero (fun e he tg hc => by
    rcases h e he with ⟨tg', rfl⟩ | rfl
    · injection hc with h1 h2
      exact hne h1
    · cases hc)

theorem isPainting_false_iff (s : EventLoop) (n : Nat) :
    s.isPainting n = false ↔ ¬ (s.lastPaintTime + 16 ≤ n) := by
  unfold EventLoop.isPainting
  rw [decide_eq_false_iff_not]
  omega

/-!
## Claims about the scheduler loop
-/

/-- C5: frame tasks run only behind the 16 ms gate. `lastPaintTime` is
initialized to the construction-time `Date.now()`; in any iteration
whose gate observation `nowCheck` satisfies `nowCheck − lastPaintTime <
16` no animation task runs, no repaint fires, and `lastPaintTime` is
untouched, whatever the iteration's outcome; and in a normally completed
iteration with the gate open the animation queue is drained to
emptiness, `lastPaintTime` is reset to the iteration's second `Date.now()`
observation and the repaint notification fires exactly once. -/
theorem C5_paint_gate :
    (∀ n, (EventLoop.create n).lastPaintTime = n) ∧
    (∀ (fuel nC nR : Nat) (s : EventLoop), ¬ 16 ≤ nC - s.lastPaintTime →
      ranCount .animQ (iteration fuel nC nR s).resTrace = 0 ∧
      repaintCount (iteration fuel nC nR s).resTrace = 0 ∧
      (iteration fuel nC nR s).resState.lastPaintTime = s.lastPaintTime) ∧
    (∀ (fuel nC nR : Nat) (s s' : EventLoop) (tr : List Event),
      iteration fuel nC nR s = .ok s' tr → 16 ≤ nC - s.lastPaintTime →
      s'.animationQueue.items = [] ∧ s'.lastPaintTime = nR ∧
      repaintCount tr = 1) := by
  refine ⟨fun n => rfl, ?_, ?_⟩
  · -- gate closed
    intro fuel nC nR s hgate
    cases hp : phase1 s with
    | mk s1 p =>
      cases p with
      | mk tr1 oe =>
        have hev1 : ∀ e ∈ tr1, ∃ tg, e = .ran .macroQ tg := by
          have := phase1_events s
          rw [hp] at this
          exact this
        have hlp1 : s1.lastPaintTime = s.lastPaintTime := by
          have := phase1_lastPaint s
          rw [hp] at this
          exact this
        cases oe with
        | some e =>
          rw [iteration_some_eq hp]
          exact ⟨ranCount_zero_of_ran (by intro h; cases h) hev1,
            repaintCount_zero_of_ran hev1, hlp1⟩
        | none =>
          rw [iteration_none_eq hp]
          have hev2 := drainQ_events .microQ fuel s1
          have hlp2 := drainQ_resState_lastPaint .microQ fuel s1
          cases hd : drainQ .microQ fuel s1 with
          | fuelOut s2 tr2 =>
            rw [hd] at hev2 hlp2
            simp only [LoopRes.resTrace, LoopRes.resState] at hev2 hlp2 ⊢
            rw [ranCount_append, repaintCount_append]
            rw [@ranCount_zero_of_ran .animQ .macroQ tr1 (by intro h; cases h) hev1,
              repaintCount_zero_of_ran hev1,
              @ranCount_zero_of_ran .animQ .microQ tr2 (by intro h; cases h) hev2,
              repaintCount_zero_of_ran hev2]
            exact ⟨rfl, rfl, by rw [hlp2, hlp1]⟩
          | fail s2 tr2 e =>
            rw [hd] at hev2 hlp2
            simp only [LoopRes.resTrace, LoopRes.resState] at hev2 hlp2 ⊢
            rw [ranCount_append, repaintCount_append]
            rw [@ranCount_zero_of_ran .animQ .macroQ tr1 (by intro h; cases h) hev1,
              repaintCount_zero_of_ran hev1,
              @ranCount_zero_of_ran .animQ .microQ tr2 (by intro h; cases h) hev2,
              repaintCount_zero_of_ran hev2]
            exact ⟨rfl, rfl, by rw [hlp2, hlp1]⟩
          | ok s2 tr2 =>
            rw [hd] at hev2 hlp2
            simp only [LoopRes.resTrace, LoopRes.resState] at hev2 hlp2
            have hpcl : s2.isPainting nC = false := by
              rw [isPainting_false_iff, hlp2, hlp1]
              omega
            show ranCount .animQ
                ((phase3 fuel nC nR s2).withPre (tr1 ++ tr2)).resTrace = 0 ∧
              repaintCount
                ((phase3 fuel nC nR s2).withPre (tr1 ++ tr2)).resTrace = 0 ∧
              ((phase3 fuel nC nR s2).withPre
                (tr1 ++ tr2)).resState.lastPaintTime = s.lastPaintTime
            rw [phase3_closed hpcl]
            simp only [LoopRes.withPre, LoopRes.resTrace, LoopRes.resState,
              List.append_nil]
            rw [ranCount_append, repaintCount_append]
            rw [@ranCount_zero_of_ran .animQ .macroQ tr1 (by intro h; cases h) hev1,
              repaintCount_zero_of_ran hev1,
              @ranCount_zero_of_ran .animQ .microQ tr2 (by intro h; cases h) hev2,
              repaintCount_zero_of_ran hev2]
            exact ⟨rfl, rfl, by rw [hlp2, hlp1]⟩
  · -- gate open, normal completion
    intro fuel nC nR s s' tr hok hgate
    cases hp : phase1 s with
    | mk s1 p =>
      cases p with
      | mk tr1 oe =>
        have hev1 : ∀ e ∈ tr1, ∃ tg, e = .ran .macroQ tg := by
          have := phase1_events s
          rw [hp] at this
          exact this
        have hlp1 : s1.lastPaintTime = s.lastPaintTime := by
          have := phase1_lastPaint s
          rw [hp] at this
          exact this
        cases oe with
        | some e =>
          rw [iteration_some_eq hp] at hok
          cases hok
        | none =>
          rw [iteration_none_eq hp] at hok
          cases hd : drainQ .microQ fuel s1 with
          | fuelOut s2 tr2 => rw [hd] at hok; cases hok
          | fail s2 tr2 e => rw [hd] at hok; cases hok
          | ok s2 tr2 =>
            rw [hd] at hok
            have hev2 := drainQ_events .microQ fuel s1
            have hlp2 := drainQ_resState_lastPaint .microQ fuel s1
            rw [hd] at hev2 hlp2
            simp only [LoopRes.resTrace, LoopRes.resState] at hev2 hlp2
            have hok2 : (phase3 fuel nC nR s2).withPre (tr1 ++ tr2) =
              LoopRes.ok s' tr := hok
            obtain ⟨tr3, hph, htr⟩ := withPre_ok_inv hok2
            have hpop : s2.isPainting nC = true := by
              rw [isPainting_true_iff, hlp2, hlp1]
              omega
            unfold phase3 at hph
            rw [if_pos hpop] at hph
            cases ha : drainQ .animQ fuel s2 with
            | fuelOut s3 tr3' => rw [ha] at hph; cases hph
            | fail s3 tr3' e => rw [ha] at hph; cases hph
            | ok s3 tr3' =>
              rw [ha] at hph
              have hev3 := drainQ_events .animQ fuel s2
              rw [ha] at hev3
              simp only [LoopRes.resTrace] at hev3
              have hanem : s3.animationQueue.items = [] := by
                have := drainQ_ok_empty .animQ fuel s2 s3 tr3' ha
                exact (hasItems_false_iff _).mp this
              cases hph
              refine ⟨hanem, rfl, ?_⟩
              rw [htr, repaintCount_append, repaintCount_append,
                repaintCount_append,
                repaintCount_zero_of_ran hev1, repaintCount_zero_of_ran hev2,
                repaintCount_zero_of_ran hev3]
              rfl

unseal heapifyUpFrom heapifyDownFrom in
theorem C5_witness :
    (EventLoop.create 5).lastPaintTime = 5 ∧
    (ranCount .animQ (iteration 4 10 11
        ⟨⟨[], some 16⟩, ⟨[], some 16⟩,
          ⟨[.mk 3 2 [] [] [] false], some 16⟩, 0⟩).resTrace = 0 ∧
      repaintCount (iteration 4 10 11
        ⟨⟨[], some 16⟩, ⟨[], some 16⟩,
          ⟨[.mk 3 2 [] [] [] false], some 16⟩, 0⟩).resTrace = 0 ∧
      (iteration 4 10 11
        ⟨⟨[], some 16⟩, ⟨[], some 16⟩,
          ⟨[.mk 3 2 [] [] [] false], some 16⟩, 0⟩).resState.lastPaintTime = 0) ∧
    ((⟨⟨[], some 16⟩, ⟨[], some 16⟩, ⟨[], some 16⟩, 21⟩ :
        EventLoop).animationQueue.items = [] ∧
      (⟨⟨[], some 16⟩, ⟨[], some 16⟩, ⟨[], some 16⟩, 21⟩ :
        EventLoop).lastPaintTime = 21 ∧
      repaintCount [Event.ran .animQ 3, Event.repaint] = 1) :=
  ⟨C5_paint_gate.1 5,
   C5_paint_gate.2.1 4 10 11
     ⟨⟨[], some 16⟩, ⟨[], some 16⟩, ⟨[.mk 3 2 [] [] [] false], some 16⟩, 0⟩
     (by decide),
   C5_paint_gate.2.2 4 20 21
     ⟨⟨[], some 16⟩, ⟨[], some 16⟩, ⟨[.mk 3 2 [] [] [] false], some 16⟩, 0⟩
     ⟨⟨[], some 16⟩, ⟨[], some 16⟩, ⟨[], some 16⟩, 21⟩
     [Event.ran .animQ 3, Event.repaint] rfl (by decide)⟩

/-- C8: for any workload (finite and non-self-cycling by construction of
`LTask`) and any clock whose gate observations grow unbounded along every
tail (time advances), `run()` terminates: some fuel settles the loop.
Moreover the loop is terminal exactly at a top-of-iteration state with
all three queues empty — a normal `.ok` return carries a task-free
state, a task-free state returns `.ok` at once — and the loop machinery
itself raises nothing: a `.fail` can only carry a propagated task or
capacity error, never `EmptyQueue`. -/
theorem C8_run_terminates (times : Nat → Nat × Nat)
    (hfair : ∀ k B, ∃ j, k ≤ j ∧ B ≤ (times j).1) (s : EventLoop) (k : Nat) :
    ∃ n, (runLoop times n k s).isSettled = true ∧
      (∀ s' tr, runLoop times n k s = .ok s' tr → s'.hasTasks = false) ∧
      (s.hasTasks = false → runLoop times n k s = .ok s []) ∧
      (∀ s' tr e, runLoop times n k s = .fail s' tr e →
        e ≠ .heapErr .emptyQueue) := by
  obtain ⟨n, hn⟩ := run_settles times hfair s k
  exact ⟨n, hn, fun s' tr h => run_ok_empty h, fun h => run_empty h times n k,
    fun s' tr e h => run_fail_err h⟩

unseal heapifyUpFrom heapifyDownFrom in
theorem C8_witness :
    ∃ n, (runLoop (fun j => (20 * j + 20, 20 * j + 20)) n 0
        ⟨⟨[], some 16⟩, ⟨[.mk 1 3 [] [] [] false], some 16⟩, ⟨[], some 16⟩, 0⟩
      ).isSettled = true ∧
      (∀ s' tr, runLoop (fun j => (20 * j + 20, 20 * j + 20)) n 0
          ⟨⟨[], some 16⟩, ⟨[.mk 1 3 [] [] [] false], some 16⟩, ⟨[], some 16⟩, 0⟩
        = .ok s' tr → s'.hasTasks = false) ∧
      ((⟨⟨[], some 16⟩, ⟨[.mk 1 3 [] [] [] false], some 16⟩, ⟨[], some 16⟩, 0⟩ :
          EventLoop).hasTasks = false →
        runLoop (fun j => (20 * j + 20, 20 * j + 20)) n 0
          ⟨⟨[], some 16⟩, ⟨[.mk 1 3 [] [] [] false], some 16⟩, ⟨[], some 16⟩, 0⟩
        = .ok ⟨⟨[], some 16⟩, ⟨[.mk 1 3 [] [] [] false], some 16⟩,
            ⟨[], some 16⟩, 0⟩ []) ∧
      (∀ s' tr e, runLoop (fun j => (20 * j + 20, 20 * j + 20)) n 0
          ⟨⟨[], some 16⟩, ⟨[.mk 1 3 [] [] [] false], some 16⟩, ⟨[], some 16⟩, 0⟩
        = .fail s' tr e → e ≠ .heapErr .emptyQueue) :=
  C8_run_terminates (fun j => (20 * j + 20, 20 * j + 20))
    (fun k B => ⟨max k B, le_max_left k B, by
      have h1 := le_max_right k B
      show B ≤ 20 * max k B + 20
      omega⟩)
    ⟨⟨[], some 16⟩, ⟨[.mk 1 3 [] [] [] false], some 16⟩, ⟨[], some 16⟩, 0⟩ 0

/-- C9: a failing task action propagates out unchanged and immediately,
at every level of the loop. If `execute` on a non-empty queue ends in an
error, the surrounding drain stops right there and returns the very
state, trace and error of the failure (no retry, no suppression, no
further execution); an iteration whose phase-1 macro execution fails
returns that failure as is; and `run()` itself surfaces the failing
iteration's state, trace and error unmodified, leaving every still-queued
task in the returned state's queues un-executed. -/
theorem C9_failure_propagates :
    (∀ (k : QueueKind) (fuel : Nat) (s s1 : EventLoop) (tr1 : List Event)
      (e : LoopError), (getQ k s).hasItems = true →
      executeQ k s = (s1, tr1, some e) →
      drainQ k (fuel + 1) s = .fail s1 tr1 e) ∧
    (∀ (fuel nC nR : Nat) (s s1 : EventLoop) (tr1 : List Event) (e : LoopError),
      s.macroTaskQueue.hasItems = true →
      executeQ .macroQ s = (s1, tr1, some e) →
      iteration fuel nC nR s = .fail s1 tr1 e) ∧
    (∀ (times : Nat → Nat × Nat) (n k : Nat) (s s1 : EventLoop)
      (tr : List Event) (e : LoopError), s.hasTasks = true →
      iteration n (times k).1 (times k).2 s = .fail s1 tr e →
      runLoop times (n + 1) k s = .fail s1 tr e) := by
  refine ⟨?_, ?_, ?_⟩
  · intro k fuel s s1 tr1 e hk hx
    unfold drainQ
    rw [hk]
    simp only [if_true]
    rw [hx]
  · intro fuel nC nR s s1 tr1 e hmac hx
    have hp : phase1 s = (s1, tr1, some e) := by
      rw [phase1_macro_true hmac, hx]
    exact iteration_some_eq hp fuel nC nR
  · intro times n k s s1 tr e hT hi
    rw [runLoop_succ_true hT, hi]

unseal heapifyDownFrom in
theorem C9_witness :
    drainQ .macroQ 1
        ⟨⟨[.mk 9 4 [] [] [] true], some 16⟩, ⟨[], some 16⟩, ⟨[], some 16⟩, 0⟩ =
      .fail ⟨⟨[], some 16⟩, ⟨[], some 16⟩, ⟨[], some 16⟩, 0⟩
        [.ran .macroQ 9] .taskFailed ∧
    iteration 3 0 1
        ⟨⟨[.mk 9 4 [] [] [] true], some 16⟩, ⟨[], some 16⟩, ⟨[], some 16⟩, 0⟩ =
      .fail ⟨⟨[], some 16⟩, ⟨[], some 16⟩, ⟨[], some 16⟩, 0⟩
        [.ran .macroQ 9] .taskFailed ∧
    runLoop (fun j => (0, 1)) 4 0
        ⟨⟨[.mk 9 4 [] [] [] true], some 16⟩, ⟨[], some 16⟩, ⟨[], some 16⟩, 0⟩ =
      .fail ⟨⟨[], some 16⟩, ⟨[], some 16⟩, ⟨[], some 16⟩, 0⟩
        [.ran .macroQ 9] .taskFailed :=
  ⟨C9_failure_propagates.1 .macroQ 0
      ⟨⟨[.mk 9 4 [] [] [] true], some 16⟩, ⟨[], some 16⟩, ⟨[], some 16⟩, 0⟩
      ⟨⟨[], some 16⟩, ⟨[], some 16⟩, ⟨[], some 16⟩, 0⟩
      [.ran .macroQ 9] .taskFailed rfl rfl,
   C9_failure_propagates.2.1 3 0 1
      ⟨⟨[.mk 9 4 [] [] [] true], some 16⟩, ⟨[], some 16⟩, ⟨[], some 16⟩, 0⟩
      ⟨⟨[], some 16⟩, ⟨[], some 16⟩, ⟨[], some 16⟩, 0⟩
      [.ran .macroQ 9] .taskFailed rfl rfl,
   C9_failure_propagates.2.2 (fun j => (0, 1)) 3 0
      ⟨⟨[.mk 9 4 [] [] [] true], some 16⟩, ⟨[], some 16⟩, ⟨[], some 16⟩, 0⟩
      ⟨⟨[], some 16⟩, ⟨[], some 16⟩, ⟨[], some 16⟩, 0⟩
      [.ran .macroQ 9] .taskFailed rfl rfl⟩

/-- C4: phase order within one normally-completed iteration of `run()`.
Phase 1 pops and executes exactly one macro (immediate) task when that
queue is non-empty — its single execution event heads the trace and no
other macro execution occurs anywhere in the iteration — and is skipped
silently otherwise; then the micro (background) queue is drained by
re-checking emptiness after every execution, so the intermediate state
entering the frame phase has an empty micro queue even when the drained
executions enqueued further background tasks; all background events
precede every frame-phase event. -/
theorem C4_phase_order {fuel nC nR : Nat} {s s' : EventLoop} {tr : List Event}
    (hok : iteration fuel nC nR s = .ok s' tr) :
    ∃ s1 tr1 s2 tr2 tr3,
      phase1 s = (s1, tr1, none) ∧
      drainQ .microQ fuel s1 = .ok s2 tr2 ∧
      s2.microTaskQueue.hasItems = false ∧
      tr = (tr1 ++ tr2) ++ tr3 ∧
      (s.macroTaskQueue.hasItems = true →
        ∃ t q2, s.macroTaskQueue.shift = .ok (t, q2) ∧
          tr1 = [Event.ran .macroQ t.tag]) ∧
      (s.macroTaskQueue.hasItems = false → tr1 = [] ∧ s1 = s) ∧
      ranCount .macroQ tr2 = 0 ∧ ranCount .macroQ tr3 = 0 ∧
      (∀ e ∈ tr2, ∃ tg, e = .ran .microQ tg) ∧
      (∀ e ∈ tr3, (∃ tg, e = .ran .animQ tg) ∨ e = .repaint) := by
  cases hp : phase1 s with
  | mk s1 p =>
    cases p with
    | mk tr1 oe =>
      cases oe with
      | some e => rw [iteration_some_eq hp] at hok; cases hok
      | none =>
        rw [iteration_none_eq hp] at hok
        cases hd : drainQ .microQ fuel s1 with
        | fuelOut s2 tr2 => rw [hd] at hok; cases hok
        | fail s2 tr2 e => rw [hd] at hok; cases hok
        | ok s2 tr2 =>
          rw [hd] at hok
          have hok2 : (phase3 fuel nC nR s2).withPre (tr1 ++ tr2) =
            LoopRes.ok s' tr := hok
          obtain ⟨tr3, hph, htr⟩ := withPre_ok_inv hok2
          have hev2 := drainQ_events .microQ fuel s1
          rw [hd] at hev2
          simp only [LoopRes.resTrace] at hev2
          have hev3 := phase3_events fuel nC nR s2
          rw [hph] at hev3
          simp only [LoopRes.resTrace] at hev3
          refine ⟨s1, tr1, s2, tr2, tr3, rfl, hd,
            drainQ_ok_empty .microQ fuel s1 s2 tr2 hd, htr, ?_, ?_,
            ranCount_zero_of_ran (by intro h; cases h) hev2,
            ranCount_zero_of_frame (by intro h; cases h) hev3, hev2, hev3⟩
          · intro hmac
            rw [phase1_macro_true hmac] at hp
            obtain ⟨t, rest, he⟩ : ∃ t rest,
                s.macroTaskQueue.items = t :: rest := by
              have := (hasItems_true_iff _).mp hmac
              cases hx : s.macroTaskQueue.items with
              | nil => exact absurd hx this
              | cons a b => exact ⟨a, b, rfl⟩
            have hee : (getQ .macroQ s).items = t :: rest := he
            rw [executeQ_nonempty_eq hee] at hp
            have htr1 : tr1 = [Event.ran .macroQ t.tag] := by
              have := congrArg (fun x => x.2.1) hp
              simpa using this.symm
            exact ⟨t, _, shift_eq _ t rest he, htr1⟩
          · intro hmac
            rw [phase1_macro_false hmac] at hp
            cases hp
            exact ⟨rfl, rfl⟩

unseal heapifyUpFrom heapifyDownFrom in
theorem C4_witness :
    ∃ s1 tr1 s2 tr2 tr3,
      phase1 ⟨⟨[.mk 1 5 [] [.mk 2 7 [] [] [] false] [] false], some 16⟩,
          ⟨[], some 16⟩, ⟨[], some 16⟩, 0⟩ = (s1, tr1, none) ∧
      drainQ .microQ 5 s1 = .ok s2 tr2 ∧
      s2.microTaskQueue.hasItems = false ∧
      ([Event.ran .macroQ 1, Event.ran .microQ 2] : List Event) =
        (tr1 ++ tr2) ++ tr3 ∧
      ((⟨⟨[.mk 1 5 [] [.mk 2 7 [] [] [] false] [] false], some 16⟩,
          ⟨[], some 16⟩, ⟨[], some 16⟩, 0⟩ :
          EventLoop).macroTaskQueue.hasItems = true →
        ∃ t q2, (⟨⟨[.mk 1 5 [] [.mk 2 7 [] [] [] false] [] false], some 16⟩,
            ⟨[], some 16⟩, ⟨[], some 16⟩, 0⟩ :
            EventLoop).macroTaskQueue.shift = .ok (t, q2) ∧
          tr1 = [Event.ran .macroQ t.tag]) ∧
      ((⟨⟨[.mk 1 5 [] [.mk 2 7 [] [] [] false] [] false], some 16⟩,
          ⟨[], some 16⟩, ⟨[], some 16⟩, 0⟩ :
          EventLoop).macroTaskQueue.hasItems = false → tr1 = [] ∧
        s1 = ⟨⟨[.mk 1 5 [] [.mk 2 7 [] [] [] false] [] false], some 16⟩,
          ⟨[], some 16⟩, ⟨[], some 16⟩, 0⟩) ∧
      ranCount .macroQ tr2 = 0 ∧ ranCount .macroQ tr3 = 0 ∧
      (∀ e ∈ tr2, ∃ tg, e = .ran .microQ tg) ∧
      (∀ e ∈ tr3, (∃ tg, e = .ran .animQ tg) ∨ e = .repaint) :=
  @C4_phase_order 5 0 1
    ⟨⟨[.mk 1 5 [] [.mk 2 7 [] [] [] false] [] false], some 16⟩,
      ⟨[], some 16⟩, ⟨[], some 16⟩, 0⟩
    ⟨⟨[], some 16⟩, ⟨[], some 16⟩, ⟨[], some 16⟩, 0⟩
    [Event.ran .macroQ 1, Event.ran .microQ 2] rfl

end EvLoop
